import Mathlib

/-!
Verification development for the go-archiver repository (`archive.go`,
`gzip_compress.go`).  The Go code is shallowly embedded: Go strings (paths,
entry names) are lists of characters, byte streams are lists of naturals,
the filesystem is an association list from absolute cleaned paths to
filesystem objects, and the `archive/tar` entry stream is a list of `Entry`
records.  The Go standard-library helpers the code calls
(`filepath.Clean`, `filepath.Join`, `filepath.Abs`, `strings.HasPrefix`,
`os.Stat`, `os.MkdirAll`, `os.OpenFile` with `O_CREATE|O_RDWR`, `io.Copy`,
`filepath.Walk` and the `archive/tar` reader) are embedded following their
documented behaviour on Unix.
-/

namespace GoArchiver

/-- Go strings are byte strings; paths are modelled as lists of characters. -/
abbrev GoStr := List Char

/-- Shorthand to write a Go string literal. -/
def gs (s : String) : GoStr := s.data

/-- Model of Go `strings.HasPrefix s pre`: `pre` is a prefix of the byte
string `s`.  This is a plain string-prefix test, not a path-component test. -/
def hasPrefixGo (s pre : GoStr) : Bool := List.isPrefixOf pre s

/-- Split a string at every `'/'` (the separator itself is dropped; empty
pieces are kept, as in Go's `strings.Split`). -/
def splitSlash : GoStr → List GoStr
  | [] => [[]]
  | c :: rest =>
    match splitSlash rest with
    | [] => [[]]
    | h :: t => if c = '/' then [] :: h :: t else (c :: h) :: t

/-- Join path components with `'/'` separators (`strings.Join(ns, "/")`). -/
def joinNames : List GoStr → GoStr
  | [] => []
  | [n] => n
  | n :: rest => n ++ '/' :: joinNames rest

/-- One step of the "Lexical File Names" cleaning loop of Go
`filepath.Clean`: the accumulator holds the output components in reverse
order; `"."` and empty components vanish, `".."` pops a previous component
(or is kept at the start of a relative path, or vanishes at the root). -/
def cleanStep (rooted : Bool) (acc : List GoStr) (comp : GoStr) : List GoStr :=
  if comp = [] ∨ comp = ['.'] then acc
  else if comp = ['.', '.'] then
    match acc with
    | [] => if rooted then [] else [['.', '.']]
    | a :: rest => if a = ['.', '.'] then ['.', '.'] :: a :: rest else rest
  else comp :: acc

/-- Model of Go `filepath.Clean` (Unix separators). -/
def cleanGo (p : GoStr) : GoStr :=
  let rooted : Bool := decide (p.head? = some '/')
  let comps := ((splitSlash p).foldl (cleanStep rooted) []).reverse
  let out := joinNames comps
  if rooted then '/' :: out
  else if out = [] then ['.'] else out

/-- Model of Go `filepath.Join` on two elements: non-empty elements are
joined with a separator, and the result is cleaned. -/
def joinGo (a b : GoStr) : GoStr :=
  if a = [] ∧ b = [] then []
  else if a = [] then cleanGo b
  else if b = [] then cleanGo a
  else cleanGo (a ++ '/' :: b)

/-- Model of Go `filepath.Abs`: an absolute path is cleaned, a relative one
is joined onto the working directory. -/
def absGo (cwd p : GoStr) : GoStr :=
  if p.head? = some '/' then cleanGo p else joinGo cwd p

/-- The absolute path with the given components, e.g. `mkAbs [d, x] = "/d/x"`. -/
def mkAbs (ns : List GoStr) : GoStr := '/' :: joinNames ns

/-- The non-empty components of an absolute path. -/
def absNames (p : GoStr) : List GoStr := (splitSlash p).filter (fun c => !c.isEmpty)

/-- The parent directory of an absolute cleaned path (drop the last component). -/
def parentOf (p : GoStr) : GoStr := mkAbs (absNames p).dropLast

/-- A well-formed file/directory name as it can occur on a real filesystem:
non-empty, without separators, and not one of the special names. -/
def goodName (n : GoStr) : Bool :=
  !n.isEmpty && !n.contains '/' && !(n == ['.']) && !(n == ['.', '.'])

/-- A filesystem object: a regular file with permission bits and byte
content, or a directory with permission bits. -/
inductive FsObj where
  | file (mode : Nat) (content : List Nat)
  | dir (mode : Nat)
deriving DecidableEq, Repr

/-- The filesystem: an association list from absolute cleaned paths to
objects.  The root `"/"` is implicitly always a directory. -/
abbrev Fs := List (GoStr × FsObj)

/-- First-match lookup in the association list. -/
def fsFind : Fs → GoStr → Option FsObj
  | [], _ => none
  | (q, o) :: rest, p => if q = p then some o else fsFind rest p

/-- Model of `os.Stat` (restricted to existence and kind/mode): the root
directory always exists; everything else is looked up in the store. -/
def fsStat (fs : Fs) (p : GoStr) : Option FsObj :=
  if p = ['/'] then some (.dir 493) else fsFind fs p

/-- Replace the object stored at a path, or append a binding for a new path. -/
def fsSet : Fs → GoStr → FsObj → Fs
  | [], p, o => [(p, o)]
  | (q, o0) :: rest, p, o => if q = p then (q, o) :: rest else (q, o0) :: fsSet rest p o

/-- The error values the embedded code can produce.  Each constructor
corresponds to one error site of `archive.go` or of the OS/stdlib calls it
makes; the original message texts are noted on each constructor. -/
inductive GoError where
  /-- `"unable to tar files - ..."`: `os.Stat` on the source/destination failed. -/
  | statErr
  /-- `"can only archive a directory"` -/
  | tarNotDir
  /-- `"can only untar into a directory"` -/
  | untarNotDir
  /-- `"illegal file path: [target]"` -/
  | illegalPath (target : GoStr)
  /-- `os.MkdirAll` hit an existing non-directory (`ENOTDIR`). -/
  | mkdirNotDir (p : GoStr)
  /-- opening a directory for writing (`EISDIR`). -/
  | openIsDir (p : GoStr)
  /-- a parent path component is a regular file (`ENOTDIR`). -/
  | openNotDir (p : GoStr)
  /-- the parent directory of the file to create does not exist (`ENOENT`). -/
  | openNoEnt (p : GoStr)
  /-- `archive/tar: invalid tar header` -/
  | errHeader
  /-- `io.ErrUnexpectedEOF` -/
  | unexpectedEof
deriving DecidableEq, Repr

instance {ε α : Type} [DecidableEq ε] [DecidableEq α] : DecidableEq (Except ε α) :=
  fun a b =>
    match a, b with
    | .error e, .error f =>
      if h : e = f then isTrue (by rw [h]) else isFalse fun hh => h (Except.error.inj hh)
    | .ok x, .ok y =>
      if h : x = y then isTrue (by rw [h]) else isFalse fun hh => h (Except.ok.inj hh)
    | .error _, .ok _ => isFalse fun hh => Except.noConfusion hh
    | .ok _, .error _ => isFalse fun hh => Except.noConfusion hh

/-- `tar.TypeReg` (the byte `'0'`). -/
def tarTypeReg : Nat := 48

/-- `tar.TypeDir` (the byte `'5'`). -/
def tarTypeDir : Nat := 53

/-- One archive entry as delivered by the `archive/tar` reader/writer:
name, type flag, permission bits, and (for regular files) the byte payload. -/
structure Entry where
  name : GoStr
  typeflag : Nat
  mode : Nat
  content : List Nat
deriving DecidableEq, Repr

/-- Model of `os.MkdirAll` on the reversed component list `sn` of an
absolute path (so that peeling the parent is structural recursion).
Following Go: stat the full path — done if it is a directory, `ENOTDIR` if
it is a file — otherwise make the parent recursively, then `Mkdir` the
path with the given permission bits. -/
def mkdirAllRev (fs : Fs) (sn : List GoStr) (mode : Nat) : Except GoError Fs :=
  match sn with
  | [] =>
    match fsStat fs (mkAbs []) with
    | some (.dir _) => .ok fs
    | some (.file _ _) => .error (.mkdirNotDir (mkAbs []))
    | none => .ok (fsSet fs (mkAbs []) (.dir mode))
  | s :: parent =>
    match fsStat fs (mkAbs (s :: parent).reverse) with
    | some (.dir _) => .ok fs
    | some (.file _ _) => .error (.mkdirNotDir (mkAbs (s :: parent).reverse))
    | none =>
      match mkdirAllRev fs parent mode with
      | .error e => .error e
      | .ok fs1 => .ok (fsSet fs1 (mkAbs (s :: parent).reverse) (.dir mode))

/-- Model of `os.MkdirAll target mode`. -/
def mkdirAll (fs : Fs) (target : GoStr) (mode : Nat) : Except GoError Fs :=
  mkdirAllRev fs (absNames target).reverse mode

/-- Model of the repository's `writeFile` (`archive.go` lines 167-177):
`os.OpenFile(target, os.O_CREATE|os.O_RDWR, mode)` followed by
`io.Copy(f, tr)`.  The open flags do not include `O_TRUNC`, so an existing
file keeps its mode and the bytes beyond the copied payload; a new file is
created with the entry's mode provided its parent directory exists. -/
def writeFile (fs : Fs) (target : GoStr) (mode : Nat) (content : List Nat) :
    Except GoError Fs :=
  match fsStat fs target with
  | some (.file m0 c0) =>
    .ok (fsSet fs target (.file m0 (content ++ c0.drop content.length)))
  | some (.dir _) => .error (.openIsDir target)
  | none =>
    match fsStat fs (parentOf target) with
    | some (.dir _) => .ok (fsSet fs target (.file mode content))
    | some (.file _ _) => .error (.openNotDir target)
    | none => .error (.openNoEnt target)

/-- One iteration of the `Untar` loop (`archive.go` lines 143-163): compute
`target = filepath.Clean(filepath.Join(absDestination, header.Name))`,
reject it unless `strings.HasPrefix(target, absDestination)`, then create a
directory (`os.Stat`, on error `os.MkdirAll`), write a regular file, or
silently skip any other entry type. -/
def untarStep (absDestination : GoStr) (fs : Fs) (e : Entry) : Except GoError Fs :=
  let target := cleanGo (joinGo absDestination e.name)
  if ¬ hasPrefixGo target absDestination then .error (.illegalPath target)
  else if e.typeflag = tarTypeDir then
    match fsStat fs target with
    | some _ => .ok fs
    | none => mkdirAll fs target e.mode
  else if e.typeflag = tarTypeReg then
    writeFile fs target e.mode e.content
  else .ok fs

/-- The `Untar` loop over an already-decoded entry stream: process entries
in order, stopping at the first error (which leaves the filesystem as the
failed step left it). -/
def untarEntries (absDestination : GoStr) (fs : Fs) :
    List Entry → Fs × Option GoError
  | [] => (fs, none)
  | e :: rest =>
    match untarStep absDestination fs e with
    | .error err => (fs, some err)
    | .ok fs1 => untarEntries absDestination fs1 rest

/-- Model of `Untar` (`archive.go` lines 120-165) over a decoded entry
stream: stat the destination (error if missing, error if not a directory),
compute its absolute form once, then run the entry loop. -/
def Untar (cwd destination : GoStr) (fs : Fs) (entries : List Entry) :
    Fs × Option GoError :=
  let absDestination := absGo cwd destination
  match fsStat fs absDestination with
  | none => (fs, some .statErr)
  | some (.file _ _) => (fs, some .untarNotDir)
  | some (.dir _) => untarEntries absDestination fs entries

/-- An in-memory source directory tree: what `Tar` walks.  A directory's
children are listed in the (platform-dependent) order the filesystem would
return them in. -/
inductive FsTree where
  | file (mode : Nat) (content : List Nat)
  | dir (mode : Nat) (children : List (GoStr × FsTree))

/-- Byte-wise string comparison, as used by Go's `sort.Strings` on the
directory names read by `filepath.Walk`. -/
def strLe : GoStr → GoStr → Bool
  | [], _ => true
  | _ :: _, [] => false
  | a :: xs, b :: ys => if a = b then strLe xs ys else decide (a < b)

/-- Order on directory listings: by name. -/
def nameLe (a b : GoStr × FsTree) : Prop := strLe a.1 b.1 = true

instance : DecidableRel nameLe :=
  fun a b => inferInstanceAs (Decidable (strLe a.1 b.1 = true))

/-- Sort a directory listing by name (Go `filepath.Walk` reads each
directory's names and sorts them before descending). -/
def sortPairs (cs : List (GoStr × FsTree)) : List (GoStr × FsTree) :=
  List.insertionSort nameLe cs

mutual

/-- The tree as `filepath.Walk` traverses it: every directory's children
sorted by name (Go's `readDirNames` sorts, so the walk is independent of
the order the platform lists names in). -/
def canonTree : FsTree → FsTree
  | .file m c => .file m c
  | .dir m cs => .dir m (sortPairs (canonForest cs))

/-- `canonTree` mapped over a directory listing. -/
def canonForest : List (GoStr × FsTree) → List (GoStr × FsTree)
  | [] => []
  | (n, t) :: rest => (n, canonTree t) :: canonForest rest

end

mutual

/-- A tree whose names could come from a real filesystem: every name is
well-formed and sibling names are distinct. -/
def treeGoodB : FsTree → Bool
  | .file _ _ => true
  | .dir _ cs => forestGoodB cs

/-- `treeGoodB` for a directory listing. -/
def forestGoodB : List (GoStr × FsTree) → Bool
  | [] => true
  | (n, t) :: rest =>
    goodName n && treeGoodB t && rest.all (fun p => !(p.1 == n)) && forestGoodB rest

end

mutual

/-- Two source trees that present identical directory contents but may
list any directory's children in a different order — the relation between
what two platforms (or two readdir orders) report for the same tree. -/
inductive Relist : FsTree → FsTree → Prop where
  | file (m : Nat) (c : List Nat) : Relist (.file m c) (.file m c)
  | dir (m : Nat) {cs1 cs2 : List (GoStr × FsTree)} :
      ForestRelist cs1 cs2 → Relist (.dir m cs1) (.dir m cs2)

/-- Permutation of directory listings with `Relist`-related entries. -/
inductive ForestRelist :
    List (GoStr × FsTree) → List (GoStr × FsTree) → Prop where
  | nil : ForestRelist [] []
  | cons {n : GoStr} {t1 t2 : FsTree} {l1 l2 : List (GoStr × FsTree)} :
      Relist t1 t2 → ForestRelist l1 l2 →
      ForestRelist ((n, t1) :: l1) ((n, t2) :: l2)
  | swap (a b : GoStr × FsTree) (l : List (GoStr × FsTree)) :
      ForestRelist (a :: b :: l) (b :: a :: l)
  | trans {l1 l2 l3 : List (GoStr × FsTree)} :
      ForestRelist l1 l2 → ForestRelist l2 l3 → ForestRelist l1 l3

end

/-- The relative path of a child, as `filepath.Rel(absSource, absFile)`
computes it during the walk: `n` below the root, `rel/n` below `rel`. -/
def relJoin (rel n : GoStr) : GoStr := if rel = ['.'] then n else rel ++ '/' :: n

/-- The relative path of the node addressed by the name chain `rs`
(`"."` for the root itself). -/
def relOf (rs : List GoStr) : GoStr := if rs = [] then ['.'] else joinNames rs

/-- The ignore matcher: `none` models `ignorer == nil` (option not given),
`some m` models a compiled pattern set with `m = MatchesPath`. -/
def matchesIgn (ignorer : Option (GoStr → Bool)) (rel : GoStr) : Bool :=
  match ignorer with
  | none => false
  | some m => m rel

mutual

/-- The walk callback of `Tar` (`archive.go` lines 64-115) at one node with
relative path `rel`, over a tree whose listings are already in walk
(canonical) order.  Symlinks and other special objects do not occur in the
tree model; a path matching the ignorer is skipped by returning `nil` —
which for a directory only suppresses its own entry, the walk still
descends into it; otherwise a header is emitted carrying `Name = relPath`
and the node's mode, followed by the file content for regular files.
(The callback's `strings.HasPrefix(absFile, absSource)` guard cannot fire
because the walk only produces paths below the source; see
`tar_walk_guard_passes`.) -/
def tarVisitTree (ignorer : Option (GoStr → Bool)) (rel : GoStr) :
    FsTree → List Entry
  | .file m c =>
    if matchesIgn ignorer rel then [] else
      [{ name := rel, typeflag := tarTypeReg, mode := m, content := c }]
  | .dir m cs =>
    (if matchesIgn ignorer rel then [] else
      [{ name := rel, typeflag := tarTypeDir, mode := m, content := [] }])
      ++ tarVisitForest ignorer rel cs

/-- The walk over the children of the directory with relative path `rel`,
in listing order. -/
def tarVisitForest (ignorer : Option (GoStr → Bool)) (rel : GoStr) :
    List (GoStr × FsTree) → List Entry
  | [] => []
  | (n, t) :: rest =>
    tarVisitTree ignorer (relJoin rel n) t ++ tarVisitForest ignorer rel rest

end

/-- The entry stream `Tar` writes for a source tree: `filepath.Walk` in
lexical order (walk the canonicalized tree), skipping the root itself
(`relPath == "."`). -/
def tarEntries (ignorer : Option (GoStr → Bool)) (t : FsTree) : List Entry :=
  match canonTree t with
  | .file _ _ => []
  | .dir _ cs => tarVisitForest ignorer ['.'] cs

/-- Model of `Tar` (`archive.go` lines 33-116): stat the source (error if
missing, error if not a directory — in both cases before anything is
written to the sink), then walk the tree emitting entries.  `source` is
`none` when the source path does not exist; the ignorer stands for the
compiled `.gitignore` matcher when the `HonorGitIgnore` option is active. -/
def Tar (ignorer : Option (GoStr → Bool)) (source : Option FsTree) :
    List Entry × Option GoError :=
  match source with
  | none => ([], some .statErr)
  | some (.file _ _) => ([], some .tarNotDir)
  | some (.dir m cs) => (tarEntries ignorer (.dir m cs), none)

/-- The ignore rule set is closed under descending one level: if a
relative path matches, every path directly beneath it matches too.
Standard ignore-file semantics ("everything under an ignored directory is
ignored") have this property; a rule set with a negation that re-includes
a file inside an ignored directory does not. -/
def IgnStepClosed (ignorer : Option (GoStr → Bool)) : Prop :=
  ∀ rel n, matchesIgn ignorer rel = true → matchesIgn ignorer (rel ++ '/' :: n) = true

mutual

/-- The result the round-trip law predicts at the destination (this
definition follows the spec's words, for comparison with what the code
produces): every tree node not excluded by the ignore rules, materialized
at its absolute path below the destination `mkAbs ds`, in walk order.
`rs` is the non-empty name chain addressing the node below the root. -/
def flatTree (ignorer : Option (GoStr → Bool)) (ds rs : List GoStr) :
    FsTree → Fs
  | .file m c =>
    if matchesIgn ignorer (joinNames rs) then [] else
      [(mkAbs (ds ++ rs), FsObj.file m c)]
  | .dir m cs =>
    (if matchesIgn ignorer (joinNames rs) then [] else
      [(mkAbs (ds ++ rs), FsObj.dir m)])
      ++ flatForest ignorer ds rs cs

/-- `flatTree` over the children of the directory addressed by `rs`. -/
def flatForest (ignorer : Option (GoStr → Bool)) (ds rs : List GoStr) :
    List (GoStr × FsTree) → Fs
  | [] => []
  | (n, t) :: rest =>
    flatTree ignorer ds (rs ++ [n]) t ++ flatForest ignorer ds rs rest

end

/-! ### The `archive/tar` byte-level reader

`Untar` consumes its input through `tar.NewReader`.  For claim C7 the
relevant stdlib behaviour is embedded: 512-byte header blocks, the
end-of-archive handling (EOF at an entry boundary and the two-zero-block
marker both end the stream without error; a partial block or a zero block
followed by garbage is an error), checksum verification, and octal field
parsing.  Extended ustar/PAX/GNU features are not modelled; headers are
read as classic (V7-style) headers, which is the format subset the
repository's own writer produces. -/

/-- A digit of an octal field. -/
def isOctalByte (b : Nat) : Bool := 48 ≤ b && b ≤ 55

/-- `bytes.Trim(b, " \x00")`: strip spaces and NUL bytes from both ends. -/
def trimSpNul (bs : List Nat) : List Nat :=
  ((bs.dropWhile fun b => b == 32 || b == 0).reverse.dropWhile
    fun b => b == 32 || b == 0).reverse

/-- Model of the tar reader's `parseOctal`: empty (after trimming) means 0,
non-octal bytes are a header error (`none`). -/
def parseOctal (bs : List Nat) : Option Nat :=
  let t := trimSpNul bs
  if t.isEmpty then some 0
  else if t.all isOctalByte then
    some (t.foldl (fun acc b => acc * 8 + (b - 48)) 0)
  else none

/-- The 512 block bytes with the checksum field (bytes 148-155) replaced by
spaces, as the checksum is computed over. -/
def checksumInput (blk : List Nat) : List Nat :=
  blk.take 148 ++ List.replicate 8 32 ++ blk.drop 156

/-- A byte as a signed 8-bit value (pre-POSIX tar writers summed signed
bytes; the reader accepts either sum). -/
def signedByte (b : Nat) : Int := if b < 128 then (b : Int) else (b : Int) - 256

/-- Model of the tar reader's `verifyChecksum`: the stored octal checksum
must equal the unsigned or the signed byte sum of the block. -/
def checksumOk (blk : List Nat) : Bool :=
  match parseOctal ((blk.drop 148).take 8) with
  | none => false
  | some v =>
    let inp := checksumInput blk
    let unsigned : Int := inp.foldl (fun acc b => acc + (b : Int)) 0
    let signed : Int := inp.foldl (fun acc b => acc + signedByte b) 0
    ((v : Int) == unsigned) || ((v : Int) == signed)

/-- A NUL-terminated string field. -/
def parseCString (bs : List Nat) : GoStr :=
  (bs.takeWhile fun b => !(b == 0)).map Char.ofNat

/-- The header fields `Untar` consumes. -/
structure TarHeader where
  name : GoStr
  mode : Nat
  size : Nat
  typeflag : Nat

/-- Parse the name, mode, size and type flag out of a header block whose
checksum already verified; a malformed octal field is a header error. -/
def parseHeader (blk : List Nat) : Option TarHeader :=
  match parseOctal ((blk.drop 100).take 8), parseOctal ((blk.drop 124).take 12) with
  | some mode, some size =>
    some { name := parseCString (blk.take 100), mode := mode, size := size,
           typeflag := (blk.drop 156).headD 0 }
  | _, _ => none

/-- Round a payload size up to whole 512-byte blocks. -/
def roundUp512 (n : Nat) : Nat := ((n + 511) / 512) * 512

/-- The `Untar` loop reading directly from the byte stream, interleaving
the stdlib reader's `Next` (header block, end-of-archive detection,
checksum, payload/padding skipping) with the per-entry processing of
`untarStep`.  A payload cut short by the end of the stream is copied as
far as it goes and then aborts with `unexpectedEof`, as `io.Copy` from the
tar reader would. -/
def untarLoopFuel (absDestination : GoStr) (fs : Fs) (fuel : Nat)
    (bs : List Nat) : Fs × Option GoError :=
  match fuel with
  | 0 => (fs, none)
  | fuel + 1 =>
    if bs.length = 0 then (fs, none)
    else if bs.length < 512 then (fs, some .unexpectedEof)
    else
      let blk := bs.take 512
      let rest := bs.drop 512
      if blk.all (fun b => b == 0) then
        if rest.length = 0 then (fs, none)
        else if rest.length < 512 then (fs, some .unexpectedEof)
        else if (rest.take 512).all (fun b => b == 0) then (fs, none)
        else (fs, some .errHeader)
      else if ¬ checksumOk blk then (fs, some .errHeader)
      else
        match parseHeader blk with
        | none => (fs, some .errHeader)
        | some hdr =>
          let entry : Entry := { name := hdr.name, typeflag := hdr.typeflag,
                                 mode := hdr.mode, content := rest.take hdr.size }
          match untarStep absDestination fs entry with
          | .error e => (fs, some e)
          | .ok fs1 =>
            if rest.length < roundUp512 hdr.size then (fs1, some .unexpectedEof)
            else untarLoopFuel absDestination fs1 fuel (rest.drop (roundUp512 hdr.size))

/-- The loop with enough fuel to consume the whole stream: every iteration
consumes at least the 512 bytes of its header block, so `bs.length + 1`
iterations can never be exhausted and the fuel-out branch is unreachable. -/
def untarLoop (absDestination : GoStr) (fs : Fs) (bs : List Nat) :
    Fs × Option GoError :=
  untarLoopFuel absDestination fs (bs.length + 1) bs

/-- Model of `Untar` consuming a raw byte stream (the composition actually
run by the code: `tar.NewReader` over the input). -/
def untarBytes (cwd destination : GoStr) (fs : Fs) (bs : List Nat) :
    Fs × Option GoError :=
  let absDestination := absGo cwd destination
  match fsStat fs absDestination with
  | none => (fs, some .statErr)
  | some (.file _ _) => (fs, some .untarNotDir)
  | some (.dir _) => untarLoop absDestination fs bs

/-- The directories created by a successful `MkdirAll` below an existing
`base`: one directory per prefix of the missing chain, each with the
requested mode, in creation order. -/
def chainDirs (base : List GoStr) (mode : Nat) : List GoStr → Fs
  | [] => []
  | n :: rest => (mkAbs (base ++ [n]), FsObj.dir mode) :: chainDirs (base ++ [n]) mode rest

/-! ## Lemmas about the string order used by the walk -/

theorem strLe_total (a b : GoStr) : strLe a b = true ∨ strLe b a = true := by
  induction a generalizing b with
  | nil => left; simp [strLe]
  | cons x xs ih =>
    cases b with
    | nil => right; simp [strLe]
    | cons y ys =>
      by_cases hxy : x = y
      · subst hxy
        rcases ih ys with h | h
        · left; simpa [strLe] using h
        · right; simpa [strLe] using h
      · rcases lt_or_gt_of_ne hxy with h | h
        · left; simp [strLe, hxy, h]
        · right; simp [strLe, Ne.symm hxy, not_lt_of_gt h, h]

theorem strLe_trans {a b c : GoStr} (h1 : strLe a b = true) (h2 : strLe b c = true) :
    strLe a c = true := by
  induction a generalizing b c with
  | nil => simp [strLe]
  | cons x xs ih =>
    cases b with
    | nil => simp [strLe] at h1
    | cons y ys =>
      cases c with
      | nil => simp [strLe] at h2
      | cons z zs =>
        by_cases hxy : x = y <;> by_cases hyz : y = z
        · subst hxy; subst hyz
          simp only [strLe, if_pos rfl] at h1 h2 ⊢
          exact ih h1 h2
        · subst hxy
          simp only [strLe, if_pos rfl] at h1
          simp only [strLe, if_neg hyz] at h2 ⊢
          exact h2
        · subst hyz
          simp only [strLe, if_neg hxy] at h1 ⊢
          exact h1
        · simp only [strLe, if_neg hxy] at h1
          simp only [strLe, if_neg hyz] at h2
          have hxz : x < z := lt_trans (of_decide_eq_true h1) (of_decide_eq_true h2)
          by_cases h : x = z
          · exact absurd (h ▸ hxz) (lt_irrefl z)
          · simp [strLe, h, hxz]

theorem strLe_antisymm {a b : GoStr} (h1 : strLe a b = true) (h2 : strLe b a = true) :
    a = b := by
  induction a generalizing b with
  | nil =>
    cases b with
    | nil => rfl
    | cons y ys => simp [strLe] at h2
  | cons x xs ih =>
    cases b with
    | nil => simp [strLe] at h1
    | cons y ys =>
      by_cases hxy : x = y
      · subst hxy
        simp only [strLe, if_pos rfl] at h1 h2
        rw [ih h1 h2]
      · simp only [strLe, if_neg hxy, if_neg (Ne.symm hxy)] at h1 h2
        exact absurd (lt_trans (of_decide_eq_true h1) (of_decide_eq_true h2)) (lt_irrefl x)

instance : IsTotal (GoStr × FsTree) nameLe :=
  ⟨fun a b => by
    rcases strLe_total a.1 b.1 with h | h
    · exact Or.inl h
    · exact Or.inr h⟩

instance : IsTrans (GoStr × FsTree) nameLe :=
  ⟨fun _ _ _ h1 h2 => strLe_trans h1 h2⟩

/-- Two listings that are sorted by name, are permutations of each other,
and have no duplicate names, are equal. -/
theorem sorted_perm_nodup_eq :
    ∀ {l1 l2 : List (GoStr × FsTree)}, l1.Perm l2 →
      l1.Sorted nameLe → l2.Sorted nameLe →
      (l1.map Prod.fst).Nodup → l1 = l2 := by
  intro l1
  induction l1 with
  | nil => intro l2 hp _ _ _; exact hp.symm.eq_nil.symm
  | cons x xs ih =>
    intro l2 hp hs1 hs2 hnd
    cases l2 with
    | nil => exact absurd hp.eq_nil (by simp)
    | cons y ys =>
      have hnd2 : x.1 ∉ xs.map Prod.fst ∧ (xs.map Prod.fst).Nodup := by
        rw [List.map_cons] at hnd; exact List.nodup_cons.mp hnd
      have hxy : x = y := by
        have hxmem : x ∈ y :: ys := hp.subset (by simp)
        have hymem : y ∈ x :: xs := hp.symm.subset (by simp)
        rcases List.mem_cons.mp hxmem with h | hxys
        · exact h
        rcases List.mem_cons.mp hymem with h | hyxs
        · exact h.symm
        -- x sits in ys and y sits in xs: their names collapse, contradicting Nodup
        have h1 : nameLe x y := (List.sorted_cons.mp hs1).1 y hyxs
        have h2 : nameLe y x := (List.sorted_cons.mp hs2).1 x hxys
        have hname : x.1 = y.1 := strLe_antisymm h1 h2
        have : x.1 ∈ xs.map Prod.fst := by
          rw [hname]
          exact List.mem_map.mpr ⟨y, hyxs, rfl⟩
        exact absurd this hnd2.1
      subst hxy
      have := ih (hp.cons_inv) (List.sorted_cons.mp hs1).2 (List.sorted_cons.mp hs2).2 hnd2.2
      rw [this]

/-! ## Lemmas about paths -/

theorem goodName_iff {n : GoStr} :
    goodName n = true ↔ n ≠ [] ∧ '/' ∉ n ∧ n ≠ ['.'] ∧ n ≠ ['.', '.'] := by
  have hc : (n.contains '/' = true) = ('/' ∈ n) := by
    simp [List.contains, List.elem_iff]
  simp [goodName, List.isEmpty_iff, hc, and_assoc]

theorem splitSlash_ne_nil (s : GoStr) : splitSlash s ≠ [] := by
  cases s with
  | nil => simp [splitSlash]
  | cons c rest =>
    simp only [splitSlash]
    cases h : splitSlash rest with
    | nil => simp
    | cons a t => dsimp only; split <;> simp

theorem splitSlash_slash_cons (s : GoStr) :
    splitSlash ('/' :: s) = [] :: splitSlash s := by
  simp only [splitSlash]
  cases h : splitSlash s with
  | nil => exact absurd h (splitSlash_ne_nil s)
  | cons a t => simp

theorem splitSlash_cons (c : Char) (rest : GoStr) :
    splitSlash (c :: rest) =
      if c = '/' then [] :: splitSlash rest
      else (c :: (splitSlash rest).headI) :: (splitSlash rest).tail := by
  simp only [splitSlash]
  cases hx : splitSlash rest with
  | nil => exact absurd hx (splitSlash_ne_nil _)
  | cons a t => by_cases hc : c = '/' <;> simp [hc]

theorem splitSlash_append_noslash (n s : GoStr) (h : '/' ∉ n) :
    splitSlash (n ++ s) = (n ++ (splitSlash s).headI) :: (splitSlash s).tail := by
  induction n with
  | nil =>
    simp only [List.nil_append, List.headI]
    cases hs : splitSlash s with
    | nil => exact absurd hs (splitSlash_ne_nil s)
    | cons a t => simp
  | cons c cs ih =>
    have hc : c ≠ '/' := fun hc => h (hc ▸ List.mem_cons_self c cs)
    have hcs : '/' ∉ cs := fun hm => h (List.mem_cons_of_mem c hm)
    rw [List.cons_append, splitSlash_cons, if_neg hc, ih hcs]
    simp

theorem joinNames_cons_cons (a b : GoStr) (l : List GoStr) :
    joinNames (a :: b :: l) = a ++ '/' :: joinNames (b :: l) := rfl

theorem splitSlash_joinNames :
    ∀ ns : List GoStr, ns ≠ [] → (∀ n ∈ ns, '/' ∉ n) →
      splitSlash (joinNames ns) = ns := by
  intro ns
  induction ns with
  | nil => intro h; exact absurd rfl h
  | cons n rest ih =>
    intro _ hns
    cases rest with
    | nil =>
      have : splitSlash (n ++ []) = (n ++ (splitSlash []).headI) :: (splitSlash []).tail :=
        splitSlash_append_noslash n [] (hns n (by simp))
      simpa [joinNames, splitSlash] using this
    | cons m rest2 =>
      have hn : '/' ∉ n := hns n (by simp)
      have : splitSlash (n ++ '/' :: joinNames (m :: rest2)) =
          (n ++ (splitSlash ('/' :: joinNames (m :: rest2))).headI) ::
            (splitSlash ('/' :: joinNames (m :: rest2))).tail :=
        splitSlash_append_noslash _ _ hn
      rw [joinNames_cons_cons, this, splitSlash_slash_cons,
        ih (List.cons_ne_nil m rest2) (fun x hx => hns x (List.mem_cons_of_mem n hx))]
      simp

theorem joinNames_append (a b : List GoStr) (ha : a ≠ []) (hb : b ≠ []) :
    joinNames (a ++ b) = joinNames a ++ '/' :: joinNames b := by
  induction a with
  | nil => exact absurd rfl ha
  | cons n rest ih =>
    cases rest with
    | nil =>
      cases b with
      | nil => exact absurd rfl hb
      | cons m r2 => simp [joinNames, joinNames_cons_cons]
    | cons m r2 =>
      have ihh := ih (List.cons_ne_nil m r2)
      rw [List.cons_append] at ihh
      simp only [List.cons_append, joinNames_cons_cons, ihh, List.append_assoc]

theorem joinNames_ne_nil {ns : List GoStr} (hne : ns ≠ [])
    (h : ∀ n ∈ ns, n ≠ []) : joinNames ns ≠ [] := by
  cases ns with
  | nil => exact absurd rfl hne
  | cons n rest =>
    cases rest with
    | nil => exact h n (by simp)
    | cons m r2 =>
      simp only [joinNames]
      intro hcon
      exact h n (by simp) (List.append_eq_nil.mp hcon).1

theorem joinNames_inj {a b : List GoStr} (ha1 : a ≠ []) (hb1 : b ≠ [])
    (ha : ∀ n ∈ a, '/' ∉ n) (hb : ∀ n ∈ b, '/' ∉ n)
    (h : joinNames a = joinNames b) : a = b := by
  have := splitSlash_joinNames a ha1 ha
  rw [h, splitSlash_joinNames b hb1 hb] at this
  exact this.symm

theorem mkAbs_inj {a b : List GoStr} (ha : ∀ n ∈ a, goodName n = true)
    (hb : ∀ n ∈ b, goodName n = true) (h : mkAbs a = mkAbs b) : a = b := by
  have hj : joinNames a = joinNames b := by
    simpa [mkAbs] using h
  rcases eq_or_ne a [] with rfl | hane
  · rcases eq_or_ne b [] with rfl | hbne
    · rfl
    · have : joinNames b ≠ [] :=
        joinNames_ne_nil hbne fun n hn => (goodName_iff.mp (hb n hn)).1
      exact absurd hj.symm this
  · rcases eq_or_ne b [] with rfl | hbne
    · have : joinNames a ≠ [] :=
        joinNames_ne_nil hane fun n hn => (goodName_iff.mp (ha n hn)).1
      exact absurd hj this
    · exact joinNames_inj hane hbne
        (fun n hn => (goodName_iff.mp (ha n hn)).2.1)
        (fun n hn => (goodName_iff.mp (hb n hn)).2.1) hj

theorem absNames_mkAbs {ns : List GoStr} (h : ∀ n ∈ ns, goodName n = true) :
    absNames (mkAbs ns) = ns := by
  cases ns with
  | nil => decide
  | cons n rest =>
    have hsplit : splitSlash (joinNames (n :: rest)) = n :: rest :=
      splitSlash_joinNames _ (by simp)
        (fun x hx => (goodName_iff.mp (h x hx)).2.1)
    rw [absNames, mkAbs]
    rw [show joinNames (n :: rest) = joinNames (n :: rest) from rfl]
    rw [splitSlash_slash_cons, hsplit, List.filter_cons_of_neg (by decide)]
    exact List.filter_eq_self.mpr fun x hx => by
      simpa [List.isEmpty_iff] using (goodName_iff.mp (h x hx)).1

theorem foldl_cleanStep_goods (r : Bool) :
    ∀ (ns : List GoStr) (acc : List GoStr), (∀ n ∈ ns, goodName n = true) →
      ns.foldl (cleanStep r) acc = ns.reverse ++ acc := by
  intro ns
  induction ns with
  | nil => simp
  | cons n rest ih =>
    intro acc h
    have hn := goodName_iff.mp (h n (by simp))
    have hstep : cleanStep r acc n = n :: acc := by
      simp [cleanStep, hn.1, hn.2.2.1, hn.2.2.2]
    rw [List.foldl_cons, hstep, ih _ (fun x hx => h x (List.mem_cons_of_mem n hx))]
    simp

theorem cleanGo_mkAbs {ns : List GoStr} (h : ∀ n ∈ ns, goodName n = true) :
    cleanGo (mkAbs ns) = mkAbs ns := by
  have hroot : (mkAbs ns).head? = some '/' := by simp [mkAbs]
  cases ns with
  | nil =>
    simp [cleanGo, mkAbs, joinNames, splitSlash_slash_cons, splitSlash, cleanStep]
  | cons n rest =>
    have hsplit : splitSlash ('/' :: joinNames (n :: rest)) = [] :: n :: rest := by
      rw [splitSlash_slash_cons,
        splitSlash_joinNames _ (List.cons_ne_nil n rest)
          (fun x hx => (goodName_iff.mp (h x hx)).2.1)]
    have hfold : ([] :: n :: rest).foldl (cleanStep true) [] = (n :: rest).reverse := by
      rw [List.foldl_cons]
      have : cleanStep true [] [] = [] := by simp [cleanStep]
      rw [this, foldl_cleanStep_goods true _ _ h]
      simp
    simp [cleanGo, hroot, hsplit, hfold, mkAbs]

/-- The join-then-clean computation `Untar` performs on a well-formed
relative entry name below a well-formed absolute destination: the result
is exactly the concatenated absolute path. -/
theorem mkAbs_append {ds rs : List GoStr} (hdne : ds ≠ []) (hrne : rs ≠ []) :
    mkAbs ds ++ '/' :: joinNames rs = mkAbs (ds ++ rs) := by
  simp only [mkAbs, List.cons_append, List.cons.injEq, true_and]
  rw [joinNames_append ds rs hdne hrne]

theorem target_eq {ds rs : List GoStr} (hds : ∀ n ∈ ds, goodName n = true)
    (hrs : ∀ n ∈ rs, goodName n = true) (hdne : ds ≠ []) (hrne : rs ≠ []) :
    cleanGo (joinGo (mkAbs ds) (joinNames rs)) = mkAbs (ds ++ rs) := by
  have hall : ∀ n ∈ ds ++ rs, goodName n = true := by
    intro n hn
    rcases List.mem_append.mp hn with h | h
    · exact hds n h
    · exact hrs n h
  have hbne : joinNames rs ≠ [] :=
    joinNames_ne_nil hrne fun n hn => (goodName_iff.mp (hrs n hn)).1
  have habs : mkAbs ds ≠ [] := by simp [mkAbs]
  rw [joinGo, if_neg (by simp [habs]), if_neg habs, if_neg hbne,
    mkAbs_append hdne hrne, cleanGo_mkAbs hall, cleanGo_mkAbs hall]

theorem hasPrefixGo_target {ds rs : List GoStr} (hdne : ds ≠ []) (hrne : rs ≠ []) :
    hasPrefixGo (mkAbs (ds ++ rs)) (mkAbs ds) = true := by
  rw [hasPrefixGo, List.isPrefixOf_iff_prefix, ← mkAbs_append hdne hrne]
  exact List.prefix_append _ _

theorem mkAbs_ne_root {ns : List GoStr} (hne : ns ≠ [])
    (h : ∀ n ∈ ns, goodName n = true) : mkAbs ns ≠ ['/'] := by
  have : joinNames ns ≠ [] :=
    joinNames_ne_nil hne fun n hn => (goodName_iff.mp (h n hn)).1
  simp [mkAbs]
  intro hcon
  exact absurd hcon this

/-- The walk-side illegal-path guard of `Tar` (`archive.go` line 81) can
never fire: every path the walk hands to the callback lies below the
source, so `strings.HasPrefix(absFile, absSource)` always holds.  The
guard is therefore not part of the walk model. -/
theorem tar_walk_guard_passes (absSource rel : GoStr) :
    hasPrefixGo (absSource ++ '/' :: rel) absSource = true := by
  rw [hasPrefixGo, List.isPrefixOf_iff_prefix]
  exact List.prefix_append _ _

/-! ## Lemmas about the filesystem store -/

theorem fsFind_eq_none_iff {fs : Fs} {p : GoStr} :
    fsFind fs p = none ↔ ∀ o, (p, o) ∉ fs := by
  induction fs with
  | nil => simp [fsFind]
  | cons e rest ih =>
    obtain ⟨q, o0⟩ := e
    by_cases h : q = p
    · subst h
      simp only [fsFind, if_pos rfl]
      constructor
      · intro hcon; exact Option.noConfusion hcon
      · intro hall
        exact absurd (show (q, o0) ∈ (q, o0) :: rest by simp) (hall o0)
    · simp only [fsFind, if_neg h, ih, List.mem_cons]
      constructor
      · intro hh o hor
        rcases hor with h3 | h3
        · exact h (congrArg Prod.fst h3).symm
        · exact hh o h3
      · intro hh o hmem
        exact hh o (Or.inr hmem)

theorem fsFind_append {a b : Fs} {p : GoStr} :
    fsFind (a ++ b) p = match fsFind a p with
      | some o => some o
      | none => fsFind b p := by
  induction a with
  | nil => simp [fsFind]
  | cons e rest ih =>
    obtain ⟨q, o0⟩ := e
    by_cases h : q = p <;> simp [fsFind, h, ih]

theorem fsFind_append_left {a b : Fs} {p : GoStr} (h : fsFind a p = none) :
    fsFind (a ++ b) p = fsFind b p := by
  rw [fsFind_append, h]

theorem fsFind_append_right {a b : Fs} {p : GoStr} {o : FsObj}
    (h : fsFind a p = some o) : fsFind (a ++ b) p = some o := by
  rw [fsFind_append, h]

theorem fsSet_fresh {fs : Fs} {p : GoStr} {o : FsObj} (h : fsFind fs p = none) :
    fsSet fs p o = fs ++ [(p, o)] := by
  induction fs with
  | nil => simp [fsSet]
  | cons e rest ih =>
    obtain ⟨q, o0⟩ := e
    by_cases hq : q = p
    · subst hq; simp [fsFind] at h
    · simp only [fsFind, if_neg hq] at h
      simp [fsSet, hq, ih h]

theorem fsFind_singleton {p q : GoStr} {o : FsObj} :
    fsFind [(q, o)] p = if q = p then some o else none := by
  simp [fsFind]

/-! ## `MkdirAll` creates exactly the missing chain of directories -/

theorem chainDirs_append (mode : Nat) :
    ∀ (ms : List GoStr) (base : List GoStr) (m : GoStr),
      chainDirs base mode (ms ++ [m]) =
        chainDirs base mode ms ++ [(mkAbs (base ++ ms ++ [m]), FsObj.dir mode)] := by
  intro ms
  induction ms with
  | nil => intro base m; simp [chainDirs]
  | cons n rest ih =>
    intro base m
    simp only [List.cons_append, chainDirs, List.append_eq]
    rw [ih (base ++ [n]) m]
    simp [List.append_assoc]

theorem chainDirs_mem (mode : Nat) :
    ∀ (miss : List GoStr) (base : List GoStr) (q : GoStr) (o : FsObj),
      (q, o) ∈ chainDirs base mode miss →
      ∃ l, l ≠ [] ∧ l <+: miss ∧ q = mkAbs (base ++ l) ∧ o = FsObj.dir mode := by
  intro miss
  induction miss with
  | nil => intro base q o h; simp [chainDirs] at h
  | cons n rest ih =>
    intro base q o h
    rcases List.mem_cons.mp h with h | h
    · exact ⟨[n], by simp, ⟨rest, rfl⟩, by
        simpa using congrArg Prod.fst h, by simpa using congrArg Prod.snd h⟩
    · obtain ⟨l, hl1, hl2, hl3, hl4⟩ := ih (base ++ [n]) q o h
      exact ⟨n :: l, by simp, by
        obtain ⟨t, ht⟩ := hl2
        exact ⟨t, by simp [← ht]⟩, by simpa using hl3, hl4⟩

theorem mkdirAllRev_exists_dir {fs : Fs} {mode bm : Nat} :
    ∀ {sn : List GoStr}, fsStat fs (mkAbs sn.reverse) = some (.dir bm) →
      mkdirAllRev fs sn mode = .ok fs := by
  intro sn h
  cases sn with
  | nil =>
    simp only [List.reverse_nil] at h
    simp only [mkdirAllRev]
    rw [h]
  | cons s parent =>
    simp only [mkdirAllRev]
    rw [h]

theorem mkdirAllRev_creates (mode : Nat) :
    ∀ (miss : List GoStr) (fs : Fs) (base : List GoStr),
      (∀ n ∈ base ++ miss, goodName n = true) →
      (∃ bm, fsStat fs (mkAbs base) = some (.dir bm)) →
      (∀ l, l ≠ [] → l <+: miss → fsFind fs (mkAbs (base ++ l)) = none) →
      miss ≠ [] →
      mkdirAllRev fs (base ++ miss).reverse mode =
        .ok (fs ++ chainDirs base mode miss) := by
  intro miss
  induction miss using List.reverseRecOn with
  | nil => intro fs base _ _ _ hne; exact absurd rfl hne
  | append_singleton ms m ih =>
    intro fs base hgood hbase hmiss _
    have hms_pref : ∀ l, l ≠ [] → l <+: ms → fsFind fs (mkAbs (base ++ l)) = none :=
      fun l h1 h2 => hmiss l h1 (h2.trans (List.prefix_append ms [m]))
    have hfind_full : fsFind fs (mkAbs (base ++ (ms ++ [m]))) = none :=
      hmiss _ (by simp) (List.prefix_refl _)
    have hne2 : base ++ (ms ++ [m]) ≠ [] := by simp
    have hstat_full : fsStat fs (mkAbs (base ++ (ms ++ [m]))) = none := by
      rw [fsStat, if_neg (mkAbs_ne_root hne2 hgood)]
      exact hfind_full
    have hstat_full2 : fsStat fs (mkAbs (base ++ ms ++ [m])) = none := by
      simpa [List.append_assoc] using hstat_full
    have hsn : (base ++ (ms ++ [m])).reverse = m :: (base ++ ms).reverse := by simp
    have htarget_good : ∀ n ∈ base ++ ms ++ [m], goodName n = true := by
      intro n hn; exact hgood n (by simpa [List.append_assoc] using hn)
    rw [hsn, mkdirAllRev.eq_def]
    simp only [List.reverse_cons, List.reverse_reverse]
    rw [hstat_full2]
    rcases eq_or_ne ms [] with rfl | hmsne
    · obtain ⟨bm, hbm⟩ := hbase
      have hpar : mkdirAllRev fs (base ++ ([] : List GoStr)).reverse mode = .ok fs :=
        mkdirAllRev_exists_dir (by simpa using hbm)
      rw [List.append_nil] at hpar ⊢
      rw [hpar]
      have hfresh : fsFind fs (mkAbs (base ++ [m])) = none := by
        simpa using hfind_full
      dsimp only
      rw [fsSet_fresh hfresh]
      simp [chainDirs]
    · have hrec := ih fs base
        (fun n hn => hgood n (by
          rcases List.mem_append.mp hn with h | h
          · exact List.mem_append.mpr (Or.inl h)
          · exact List.mem_append.mpr (Or.inr (List.mem_append.mpr (Or.inl h)))))
        hbase hms_pref hmsne
      rw [hrec]
      dsimp only
      have hfresh : fsFind (fs ++ chainDirs base mode ms) (mkAbs (base ++ ms ++ [m])) = none := by
        rw [fsFind_append]
        have h1 : fsFind fs (mkAbs (base ++ ms ++ [m])) = none := by
          simpa [List.append_assoc] using hfind_full
        rw [h1]
        rw [fsFind_eq_none_iff]
        intro o hmem
        obtain ⟨l, hl1, hl2, hl3, _⟩ := chainDirs_mem mode ms base _ o hmem
        have hlg : ∀ n ∈ base ++ l, goodName n = true := by
          intro n hn
          rcases List.mem_append.mp hn with h | h
          · exact hgood n (List.mem_append.mpr (Or.inl h))
          · exact hgood n (List.mem_append.mpr (Or.inr
              (List.mem_append.mpr (Or.inl (hl2.subset h)))))
        have := mkAbs_inj hlg (by simpa [List.append_assoc] using htarget_good) hl3.symm
        have hlen : l.length ≤ ms.length := hl2.length_le
        have : (base ++ l).length = (base ++ ms ++ [m]).length := by rw [this]
        simp [List.length_append] at this
        omega
      rw [fsSet_fresh hfresh]
      rw [chainDirs_append mode ms base m]
      simp [List.append_assoc]

/-! ## Unfolding lemmas for `untarStep` -/

theorem untarStep_reg_eq (absDest : GoStr) (fs : Fs) (e : Entry)
    (htype : e.typeflag = tarTypeReg)
    (hpre : hasPrefixGo (cleanGo (joinGo absDest e.name)) absDest = true) :
    untarStep absDest fs e =
      writeFile fs (cleanGo (joinGo absDest e.name)) e.mode e.content := by
  simp [untarStep, hpre, htype, tarTypeReg, tarTypeDir]

theorem untarStep_dir_eq (absDest : GoStr) (fs : Fs) (e : Entry)
    (htype : e.typeflag = tarTypeDir)
    (hpre : hasPrefixGo (cleanGo (joinGo absDest e.name)) absDest = true) :
    untarStep absDest fs e =
      match fsStat fs (cleanGo (joinGo absDest e.name)) with
      | some _ => .ok fs
      | none => mkdirAll fs (cleanGo (joinGo absDest e.name)) e.mode := by
  simp [untarStep, hpre, htype, tarTypeDir]

/-! ## Behaviour of `writeFile` within `untarStep` -/

/-- C5 (amended): for every regular-file entry processed by `Untar`, the
target is opened for writing with the entry's permission bits, created if
missing — but not truncated, since the open flags are only
`O_CREATE|O_RDWR`.  The payload overwrites the front of the file, so a
pre-existing longer file keeps its tail beyond the payload; an existing
file also keeps its permission bits (the entry's mode is applied only at
creation), and a missing parent directory is an error rather than a
truncating create. -/
theorem untar_file_entry_write_semantics (absDest : GoStr) (fs : Fs) (e : Entry)
    (htype : e.typeflag = tarTypeReg)
    (hpre : hasPrefixGo (cleanGo (joinGo absDest e.name)) absDest = true) :
    (∀ m0 c0, fsStat fs (cleanGo (joinGo absDest e.name)) = some (.file m0 c0) →
      untarStep absDest fs e =
        .ok (fsSet fs (cleanGo (joinGo absDest e.name))
          (.file m0 (e.content ++ c0.drop e.content.length)))) ∧
    (fsStat fs (cleanGo (joinGo absDest e.name)) = none →
      ∀ pm, fsStat fs (parentOf (cleanGo (joinGo absDest e.name))) = some (.dir pm) →
        untarStep absDest fs e =
          .ok (fsSet fs (cleanGo (joinGo absDest e.name)) (.file e.mode e.content))) ∧
    (fsStat fs (cleanGo (joinGo absDest e.name)) = none →
      fsStat fs (parentOf (cleanGo (joinGo absDest e.name))) = none →
      untarStep absDest fs e =
        .error (.openNoEnt (cleanGo (joinGo absDest e.name)))) := by
  refine ⟨?_, ?_, ?_⟩
  · intro m0 c0 hstat
    rw [untarStep_reg_eq absDest fs e htype hpre, writeFile, hstat]
  · intro hstat pm hparent
    rw [untarStep_reg_eq absDest fs e htype hpre, writeFile, hstat, hparent]
  · intro hstat hparent
    rw [untarStep_reg_eq absDest fs e htype hpre, writeFile, hstat, hparent]


/-! ## Per-claim theorems -/

/-- C5 (counterexample): the claim says "the entry's full byte payload is
copied into it, so after extraction the target's contents equal exactly the
entry payload even if a longer file already existed at the target".  On a
pre-existing 4-byte file and a 2-byte payload the result is the payload
followed by the old tail, not the payload. -/
theorem untar_file_entry_truncation_counterexample :
    untarStep (gs "/dst")
        [(gs "/dst", .dir 493), (gs "/dst/f", .file 420 [97, 98, 99, 100])]
        { name := gs "f", typeflag := tarTypeReg, mode := 420, content := [120, 121] } =
      .ok [(gs "/dst", .dir 493), (gs "/dst/f", .file 420 [120, 121, 99, 100])] ∧
    ([120, 121, 99, 100] : List Nat) ≠ [120, 121] := by decide

/-- C5 (witness for the amended claim): both branches of
`untar_file_entry_write_semantics` at concrete inputs — an existing longer
file keeps mode and tail; a fresh file is created with the entry's mode
and exactly the payload. -/
theorem untar_file_entry_write_semantics_witness :
    untarStep (gs "/d") [(gs "/d", .dir 493), (gs "/d/f", .file 7 [97, 98, 99, 100])]
        { name := gs "f", typeflag := tarTypeReg, mode := 420, content := [120, 121] } =
      .ok (fsSet [(gs "/d", .dir 493), (gs "/d/f", .file 7 [97, 98, 99, 100])] (gs "/d/f")
        (.file 7 ([120, 121] ++ ([97, 98, 99, 100] : List Nat).drop 2))) ∧
    untarStep (gs "/d") [(gs "/d", .dir 493)]
        { name := gs "g", typeflag := tarTypeReg, mode := 384, content := [65] } =
      .ok (fsSet [(gs "/d", .dir 493)] (gs "/d/g") (.file 384 [65])) := by
  constructor
  · exact (untar_file_entry_write_semantics (gs "/d")
      [(gs "/d", .dir 493), (gs "/d/f", .file 7 [97, 98, 99, 100])]
      { name := gs "f", typeflag := tarTypeReg, mode := 420, content := [120, 121] }
      rfl (by decide)).1 7 [97, 98, 99, 100] (by decide)
  · exact ((untar_file_entry_write_semantics (gs "/d") [(gs "/d", .dir 493)]
      { name := gs "g", typeflag := tarTypeReg, mode := 384, content := [65] }
      rfl (by decide)).2.1 (by decide) 493 (by decide))

/-- C10: for every regular-file entry whose target already exists as a
file, the existing permission bits are kept: the stored object after the
step carries the old mode `m0`, not the entry's mode — the mode on the
entry is used by `os.OpenFile` only when the file is created. -/
theorem untar_existing_file_mode_unchanged (absDest : GoStr) (fs : Fs) (e : Entry)
    (m0 : Nat) (c0 : List Nat)
    (htype : e.typeflag = tarTypeReg)
    (hpre : hasPrefixGo (cleanGo (joinGo absDest e.name)) absDest = true)
    (hstat : fsStat fs (cleanGo (joinGo absDest e.name)) = some (.file m0 c0)) :
    untarStep absDest fs e =
      .ok (fsSet fs (cleanGo (joinGo absDest e.name))
        (.file m0 (e.content ++ c0.drop e.content.length))) := by
  rw [untarStep_reg_eq absDest fs e htype hpre, writeFile, hstat]

/-- C10 (witness): an entry carrying mode 420 written over an existing
file with mode 7 leaves the mode at 7. -/
theorem untar_existing_file_mode_unchanged_witness :
    untarStep (gs "/d") [(gs "/d", .dir 493), (gs "/d/f", .file 7 [97])]
        { name := gs "f", typeflag := tarTypeReg, mode := 420, content := [120] } =
      .ok (fsSet [(gs "/d", .dir 493), (gs "/d/f", .file 7 [97])] (gs "/d/f")
        (.file 7 ([120] ++ ([97] : List Nat).drop 1))) ∧ (7 : Nat) ≠ 420 := by
  constructor
  · exact untar_existing_file_mode_unchanged (gs "/d")
      [(gs "/d", .dir 493), (gs "/d/f", .file 7 [97])]
      { name := gs "f", typeflag := tarTypeReg, mode := 420, content := [120] }
      7 [97] rfl (by decide) (by decide)
  · decide

/-- C6: `Tar` on a source that exists but is a regular file fails with the
"can only archive a directory" error and emits nothing to the sink. -/
theorem tar_regular_file_source_rejected (ignorer : Option (GoStr → Bool))
    (m : Nat) (c : List Nat) :
    Tar ignorer (some (.file m c)) = ([], some .tarNotDir) := rfl

/-- C1: the code's safety check is a plain string-prefix test, and it can
be bypassed.  With destination `/tmp/d`, the entry `../dx` resolves to
`/tmp/dx` — outside the destination root — yet passes
`strings.HasPrefix(target, absDestination)` and is written; the following
entry `../../x` resolves to `/x`, fails the check, and aborts with the
illegal-path error.  So `Untar` aborts with an illegal-path error exactly
as the claim says, but a filesystem object outside the destination root
has been created by then, contradicting the claim's (and the spec's)
safety guarantee. -/
theorem untar_prefix_check_bypass :
    Untar (gs "/") (gs "/tmp/d") [(gs "/tmp", .dir 493), (gs "/tmp/d", .dir 493)]
        [{ name := gs "../dx", typeflag := tarTypeReg, mode := 420, content := [120] },
         { name := gs "../../x", typeflag := tarTypeReg, mode := 420, content := [] }] =
      ([(gs "/tmp", .dir 493), (gs "/tmp/d", .dir 493), (gs "/tmp/dx", .file 420 [120])],
        some (.illegalPath (gs "/x"))) ∧
    hasPrefixGo (gs "/tmp/dx") (gs "/tmp/d") = true ∧
    ¬(gs "/tmp/dx" = gs "/tmp/d" ∨ (gs "/tmp/d" ++ ['/']) <+: gs "/tmp/dx") := by
  decide

/-- C4 (amended): missing intermediate directories are created on demand
only for directory entries (`os.MkdirAll`); a regular-file entry whose
parent directory does not exist is not helped — `os.OpenFile` fails with
`ENOENT` and the whole operation aborts. -/
theorem untar_parent_dirs_on_demand_only_for_dir_entries (absDest : GoStr)
    (fs : Fs) (e : Entry)
    (hpre : hasPrefixGo (cleanGo (joinGo absDest e.name)) absDest = true) :
    (e.typeflag = tarTypeDir →
      ∀ base miss bm, cleanGo (joinGo absDest e.name) = mkAbs (base ++ miss) →
        (∀ n ∈ base ++ miss, goodName n = true) →
        fsStat fs (mkAbs base) = some (.dir bm) →
        (∀ k, k < miss.length → fsFind fs (mkAbs (base ++ miss.take (k + 1))) = none) →
        miss ≠ [] →
        untarStep absDest fs e = .ok (fs ++ chainDirs base e.mode miss)) ∧
    (e.typeflag = tarTypeReg →
      fsStat fs (cleanGo (joinGo absDest e.name)) = none →
      fsStat fs (parentOf (cleanGo (joinGo absDest e.name))) = none →
      untarStep absDest fs e = .error (.openNoEnt (cleanGo (joinGo absDest e.name)))) := by
  constructor
  · intro htype base miss bm htarget hgood hbase hfreshk hne
    have hfresh : ∀ l, l ≠ [] → l <+: miss → fsFind fs (mkAbs (base ++ l)) = none := by
      intro l h1 h2
      have hlen : l.length ≤ miss.length := h2.length_le
      have hl : l = miss.take l.length := List.prefix_iff_eq_take.mp h2
      cases hL : l.length with
      | zero => exact absurd (List.length_eq_zero.mp hL) h1
      | succ k =>
        have hk : k < miss.length := by omega
        have := hfreshk k hk
        rw [hl, hL]
        exact this
    have hstat : fsStat fs (mkAbs (base ++ miss)) = none := by
      rw [fsStat, if_neg (mkAbs_ne_root
        (fun hcon => hne (List.append_eq_nil.mp hcon).2) hgood)]
      exact hfresh miss hne (List.prefix_refl _)
    rw [untarStep_dir_eq absDest fs e htype hpre, htarget, hstat, mkdirAll,
      absNames_mkAbs hgood]
    exact mkdirAllRev_creates e.mode miss fs base hgood ⟨bm, hbase⟩ hfresh hne
  · intro htype hstat hparent
    rw [untarStep_reg_eq absDest fs e htype hpre, writeFile, hstat, hparent]

/-- C4 (counterexample): a regular-file entry `a/b` whose parent directory
`a` has no preceding directory entry makes the whole `Untar` run fail with
`ENOENT` instead of creating the parent on demand. -/
theorem untar_file_entry_missing_parent_fails :
    Untar (gs "/") (gs "/dst") [(gs "/dst", .dir 493)]
        [{ name := gs "a/b", typeflag := tarTypeReg, mode := 420, content := [65] }] =
      ([(gs "/dst", .dir 493)], some (.openNoEnt (gs "/dst/a/b"))) := by decide

/-- C4 (witness for the amended claim): a directory entry `a/b` with both
levels missing is created together with its intermediate directory, while
the same-named regular-file entry fails. -/
theorem untar_parent_dirs_on_demand_witness :
    untarStep (gs "/dst") [(gs "/dst", .dir 493)]
        { name := gs "a/b", typeflag := tarTypeDir, mode := 448, content := [] } =
      .ok ([(gs "/dst", .dir 493)] ++ chainDirs [gs "dst"] 448 [gs "a", gs "b"]) ∧
    untarStep (gs "/dst") [(gs "/dst", .dir 493)]
        { name := gs "a/b", typeflag := tarTypeReg, mode := 420, content := [65] } =
      .error (.openNoEnt (gs "/dst/a/b")) := by
  constructor
  · exact (untar_parent_dirs_on_demand_only_for_dir_entries (gs "/dst")
      [(gs "/dst", .dir 493)]
      { name := gs "a/b", typeflag := tarTypeDir, mode := 448, content := [] }
      (by decide)).1 rfl [gs "dst"] [gs "a", gs "b"] 493 (by decide) (by decide)
      (by decide) (by decide) (by decide)
  · exact (untar_parent_dirs_on_demand_only_for_dir_entries (gs "/dst")
      [(gs "/dst", .dir 493)]
      { name := gs "a/b", typeflag := tarTypeReg, mode := 420, content := [65] }
      (by decide)).2 rfl (by decide) (by decide)

/-- C8: for every directory entry, an existing target (of any kind) makes
the entry a no-op without error — re-extracting into a populated
destination succeeds — and a missing target is created together with any
missing intermediate directories, all carrying the entry's permission
bits. -/
theorem untar_dir_entry_idempotent_and_creates (absDest : GoStr) (fs : Fs)
    (e : Entry) (base miss : List GoStr) (bm : Nat)
    (htype : e.typeflag = tarTypeDir)
    (hpre : hasPrefixGo (cleanGo (joinGo absDest e.name)) absDest = true)
    (htarget : cleanGo (joinGo absDest e.name) = mkAbs (base ++ miss))
    (hgood : ∀ n ∈ base ++ miss, goodName n = true)
    (hbase : fsStat fs (mkAbs base) = some (.dir bm)) :
    (∀ o, fsStat fs (mkAbs (base ++ miss)) = some o → untarStep absDest fs e = .ok fs) ∧
    ((∀ k, k < miss.length → fsFind fs (mkAbs (base ++ miss.take (k + 1))) = none) →
      miss ≠ [] →
      untarStep absDest fs e = .ok (fs ++ chainDirs base e.mode miss)) := by
  constructor
  · intro o hstat
    rw [untarStep_dir_eq absDest fs e htype hpre, htarget, hstat]
  · intro hfreshk hne
    have hfresh : ∀ l, l ≠ [] → l <+: miss → fsFind fs (mkAbs (base ++ l)) = none := by
      intro l h1 h2
      have hlen : l.length ≤ miss.length := h2.length_le
      have hl : l = miss.take l.length := List.prefix_iff_eq_take.mp h2
      cases hL : l.length with
      | zero => exact absurd (List.length_eq_zero.mp hL) h1
      | succ k =>
        have hk : k < miss.length := by omega
        have := hfreshk k hk
        rw [hl, hL]
        exact this
    have hstat : fsStat fs (mkAbs (base ++ miss)) = none := by
      rw [fsStat, if_neg (mkAbs_ne_root
        (fun hcon => hne (List.append_eq_nil.mp hcon).2) hgood)]
      exact hfresh miss hne (List.prefix_refl _)
    rw [untarStep_dir_eq absDest fs e htype hpre, htarget, hstat, mkdirAll,
      absNames_mkAbs hgood]
    exact mkdirAllRev_creates e.mode miss fs base hgood ⟨bm, hbase⟩ hfresh hne

/-- C8 (witness): re-extracting the directory entry `a` into a destination
that already has `/dst/a` is a no-op; extracting directory entry `a/b`
into an empty destination creates `/dst/a` and `/dst/a/b` with the entry's
mode. -/
theorem untar_dir_entry_idempotent_and_creates_witness :
    untarStep (gs "/dst") [(gs "/dst", .dir 493), (gs "/dst/a", .dir 448)]
        { name := gs "a", typeflag := tarTypeDir, mode := 400, content := [] } =
      .ok [(gs "/dst", .dir 493), (gs "/dst/a", .dir 448)] ∧
    untarStep (gs "/dst") [(gs "/dst", .dir 493)]
        { name := gs "a/b", typeflag := tarTypeDir, mode := 448, content := [] } =
      .ok ([(gs "/dst", .dir 493)] ++ chainDirs [gs "dst"] 448 [gs "a", gs "b"]) := by
  constructor
  · exact (untar_dir_entry_idempotent_and_creates (gs "/dst")
      [(gs "/dst", .dir 493), (gs "/dst/a", .dir 448)]
      { name := gs "a", typeflag := tarTypeDir, mode := 400, content := [] }
      [gs "dst"] [gs "a"] 493 rfl (by decide) (by decide) (by decide) (by decide)).1
      (.dir 448) (by decide)
  · exact (untar_dir_entry_idempotent_and_creates (gs "/dst")
      [(gs "/dst", .dir 493)]
      { name := gs "a/b", typeflag := tarTypeDir, mode := 448, content := [] }
      [gs "dst"] [gs "a", gs "b"] 493 rfl (by decide) (by decide) (by decide)
      (by decide)).2 (by decide) (by decide)

set_option maxRecDepth 40000 in
/-- C7 (counterexample): a single 512-byte zero block is not a valid
archive — the end-of-archive marker is two zero blocks — yet `Untar`
accepts it silently: the reader hits end-of-input while looking for the
second block, which surfaces as `io.EOF`, and `Untar` treats `io.EOF` as
normal termination.  (The empty stream is accepted the same way.) -/
theorem untar_truncated_trailer_accepted :
    untarBytes (gs "/") (gs "/dst") [(gs "/dst", .dir 493)]
        (List.replicate 512 0) = ([(gs "/dst", .dir 493)], none) := by decide

/-- C7 (amended): `Untar` does return a non-nil error whenever the header
reader rejects the stream: a truncated header block yields
`io.ErrUnexpectedEOF`, and a complete nonzero leading block with an
invalid checksum yields the invalid-header error.  (Only streams that end
cleanly at an entry boundary — empty stream, lone zero block, missing
trailer — are accepted without error.) -/
theorem untar_malformed_header_rejected (cwd destination : GoStr) (fs : Fs)
    (bs : List Nat) (dm : Nat)
    (hdest : fsStat fs (absGo cwd destination) = some (.dir dm)) :
    (0 < bs.length → bs.length < 512 →
      (untarBytes cwd destination fs bs).2 = some .unexpectedEof) ∧
    (512 ≤ bs.length → (bs.take 512).all (fun b => b == 0) = false →
      checksumOk (bs.take 512) = false →
      (untarBytes cwd destination fs bs).2 = some .errHeader) := by
  constructor
  · intro h1 h2
    have h0 : ¬ bs.length = 0 := by omega
    simp only [untarBytes]
    rw [hdest]
    simp only [untarLoop, untarLoopFuel]
    simp [h0, h2]
  · intro h1 h2 h3
    have h0 : ¬ bs.length = 0 := by omega
    have hlt : ¬ bs.length < 512 := by omega
    simp only [untarBytes]
    rw [hdest]
    simp only [untarLoop, untarLoopFuel]
    simp [h0, hlt, h2, h3]

set_option maxRecDepth 40000 in
/-- C7 (witness for the amended claim): 512 bytes of value 1 are a
complete nonzero block whose checksum field is not even octal, so `Untar`
reports the invalid-header error. -/
theorem untar_malformed_header_rejected_witness :
    (untarBytes (gs "/") (gs "/dst") [(gs "/dst", .dir 493)]
      (List.replicate 512 1)).2 = some GoError.errHeader := by
  exact (untar_malformed_header_rejected (gs "/") (gs "/dst")
      [(gs "/dst", .dir 493)] (List.replicate 512 1) 493 (by decide)).2
    (by decide) (by decide) (by decide)

/-! ## Emitted entries never match the ignore rules -/

mutual

theorem tarVisitTree_not_matched (ignorer : Option (GoStr → Bool)) :
    ∀ (t : FsTree) (rel : GoStr) (e : Entry), e ∈ tarVisitTree ignorer rel t →
      matchesIgn ignorer e.name = false
  | .file m c, rel, e => by
    intro hmem
    by_cases h : matchesIgn ignorer rel
    · simp [tarVisitTree, h] at hmem
    · simp only [tarVisitTree, if_neg h, List.mem_singleton] at hmem
      rw [hmem]
      simpa using h
  | .dir m cs, rel, e => by
    intro hmem
    simp only [tarVisitTree] at hmem
    rcases List.mem_append.mp hmem with hh | hh
    · by_cases h : matchesIgn ignorer rel
      · rw [if_pos h] at hh
        simp at hh
      · rw [if_neg h] at hh
        simp only [List.mem_singleton] at hh
        rw [hh]
        simpa using h
    · exact tarVisitForest_not_matched ignorer cs rel e hh

theorem tarVisitForest_not_matched (ignorer : Option (GoStr → Bool)) :
    ∀ (cs : List (GoStr × FsTree)) (rel : GoStr) (e : Entry),
      e ∈ tarVisitForest ignorer rel cs → matchesIgn ignorer e.name = false
  | [], rel, e => by intro hmem; simp [tarVisitForest] at hmem
  | (n, t) :: rest, rel, e => by
    intro hmem
    rcases List.mem_append.mp (by simpa only [tarVisitForest] using hmem) with hh | hh
    · exact tarVisitTree_not_matched ignorer t (relJoin rel n) e hh
    · exact tarVisitForest_not_matched ignorer rest rel e hh

end

/-- C3 (counterexample): with an ignore matcher that matches exactly the
directory path `d` (but not the paths beneath it — e.g. a rule set with a
negation), the walk still descends into `d` and emits the entry `d/f`
beneath it, so a matched directory is neither pruned from the traversal
nor are its contents kept out of the archive. -/
theorem tar_ignored_dir_descends_counterexample :
    matchesIgn (some fun s => s == gs "d") (gs "d") = true ∧
    (tarEntries (some fun s => s == gs "d")
        (.dir 493 [(gs "d", .dir 493 [(gs "f", .file 420 [97])])])).map
      (fun e => e.name) = [gs "d/f"] ∧
    (gs "d" ++ ['/']) <+: gs "d/f" := by decide

/-- C3 (amended): a path matching the ignore rules is skipped individually
— the matched directory's own entry is omitted but the walk still descends
into it; entries beneath it are all omitted exactly when the rule set also
matches every path beneath it (as standard ignore-file semantics do).
Under that closure assumption, no entry at or below a matched directory is
ever emitted. -/
theorem tar_ignored_subtree_not_emitted (ignorer : Option (GoStr → Bool))
    (t : FsTree) (d : GoStr)
    (hd : matchesIgn ignorer d = true)
    (hclosed : ∀ s, matchesIgn ignorer (d ++ '/' :: s) = true) :
    ∀ e ∈ tarEntries ignorer t, e.name ≠ d ∧ ¬((d ++ ['/']) <+: e.name) := by
  intro e hmem
  have hnm : matchesIgn ignorer e.name = false := by
    rw [tarEntries] at hmem
    cases h : canonTree t with
    | file m c => rw [h] at hmem; simp at hmem
    | dir m cs =>
      rw [h] at hmem
      exact tarVisitForest_not_matched ignorer cs ['.'] e hmem
  constructor
  · intro hcon
    rw [hcon, hd] at hnm
    exact Bool.noConfusion hnm
  · intro hpre
    obtain ⟨sfx, hsfx⟩ := hpre
    have : e.name = d ++ '/' :: sfx := by
      rw [← hsfx, List.append_assoc]
      rfl
    rw [this, hclosed sfx] at hnm
    exact Bool.noConfusion hnm

/-- C3 (witness for the amended claim): a matcher matching `d` and
everything below it; the sibling file `x` is still archived, and the
theorem applied to that emitted entry shows it is neither `d` nor below
`d/`. -/
theorem tar_ignored_subtree_not_emitted_witness :
    ({ name := gs "x", typeflag := tarTypeReg, mode := 420,
       content := [98] } : Entry).name ≠ gs "d" ∧
    ¬((gs "d" ++ ['/']) <+:
      ({ name := gs "x", typeflag := tarTypeReg, mode := 420,
         content := [98] } : Entry).name) := by
  exact tar_ignored_subtree_not_emitted (some fun s => hasPrefixGo s (gs "d"))
    (.dir 493 [(gs "d", .dir 493 [(gs "f", .file 420 [97])]),
               (gs "x", .file 420 [98])])
    (gs "d") (by decide)
    (fun s => tar_walk_guard_passes (gs "d") s)
    { name := gs "x", typeflag := tarTypeReg, mode := 420, content := [98] }
    (by decide)

/-! ## Canonicalization is invariant under relisting -/

theorem canonForest_map_fst :
    ∀ cs : List (GoStr × FsTree), (canonForest cs).map Prod.fst = cs.map Prod.fst
  | [] => rfl
  | (n, t) :: rest => by simp [canonForest, canonForest_map_fst rest]

theorem forestGoodB_cons {n : GoStr} {t : FsTree} {rest : List (GoStr × FsTree)} :
    forestGoodB ((n, t) :: rest) = true ↔
      goodName n = true ∧ treeGoodB t = true ∧
      (∀ p ∈ rest, p.1 ≠ n) ∧ forestGoodB rest = true := by
  simp only [forestGoodB, Bool.and_eq_true, List.all_eq_true, and_assoc]
  constructor
  · rintro ⟨h1, h2, h3, h4⟩
    exact ⟨h1, h2, fun p hp => by simpa using h3 p hp, h4⟩
  · rintro ⟨h1, h2, h3, h4⟩
    exact ⟨h1, h2, fun p hp => by simpa using h3 p hp, h4⟩

theorem forestGoodB_nodup_keys :
    ∀ {cs : List (GoStr × FsTree)}, forestGoodB cs = true →
      (cs.map Prod.fst).Nodup := by
  intro cs
  induction cs with
  | nil => intro; simp
  | cons e rest ih =>
    obtain ⟨n, t⟩ := e
    intro h
    obtain ⟨_, _, h3, h4⟩ := forestGoodB_cons.mp h
    simp only [List.map_cons, List.nodup_cons]
    exact ⟨fun hcon => by
      obtain ⟨p, hp, hpe⟩ := List.mem_map.mp hcon
      exact h3 p hp hpe, ih h4⟩

theorem sortPairs_sorted (l : List (GoStr × FsTree)) :
    (sortPairs l).Sorted nameLe :=
  List.sorted_insertionSort nameLe l

theorem sortPairs_perm (l : List (GoStr × FsTree)) : (sortPairs l).Perm l :=
  List.perm_insertionSort nameLe l

/-- Relisting a well-formed tree does not change its canonical (walk)
form; along the way, well-formedness transports and the canonical
listings stay permutations with the same name multiset. -/
theorem relist_canonTree_eq {t1 t2 : FsTree} (h : Relist t1 t2) :
    treeGoodB t1 = true → treeGoodB t2 = true ∧ canonTree t1 = canonTree t2 := by
  refine @Relist.rec
    (fun t1 t2 _ => treeGoodB t1 = true → treeGoodB t2 = true ∧ canonTree t1 = canonTree t2)
    (fun cs1 cs2 _ => forestGoodB cs1 = true → forestGoodB cs2 = true ∧
      (canonForest cs1).Perm (canonForest cs2) ∧
      (cs1.map Prod.fst).Perm (cs2.map Prod.fst))
    ?_ ?_ ?_ ?_ ?_ ?_ t1 t2 h
  · intro m c _
    exact ⟨rfl, rfl⟩
  · intro m cs1 cs2 hf ihf hg
    rw [treeGoodB] at hg
    obtain ⟨hg2, hpc, hpk⟩ := ihf hg
    refine ⟨by rw [treeGoodB]; exact hg2, ?_⟩
    simp only [canonTree]
    have hnd : ((sortPairs (canonForest cs1)).map Prod.fst).Nodup := by
      have h1 : ((sortPairs (canonForest cs1)).map Prod.fst).Perm
          ((canonForest cs1).map Prod.fst) := (sortPairs_perm _).map Prod.fst
      rw [canonForest_map_fst] at h1
      exact h1.nodup_iff.mpr (forestGoodB_nodup_keys hg)
    have heq : sortPairs (canonForest cs1) = sortPairs (canonForest cs2) :=
      sorted_perm_nodup_eq
        (((sortPairs_perm _).trans hpc).trans (sortPairs_perm _).symm)
        (sortPairs_sorted _) (sortPairs_sorted _) hnd
    rw [heq]
  · intro _
    exact ⟨rfl, List.Perm.refl _, List.Perm.refl _⟩
  · intro n x1 x2 l1 l2 ht hf iht ihf hg
    obtain ⟨hn, hx1, hne1, hl1⟩ := forestGoodB_cons.mp hg
    obtain ⟨hx2, hcx⟩ := iht hx1
    obtain ⟨hl2, hpc, hpk⟩ := ihf hl1
    refine ⟨forestGoodB_cons.mpr ⟨hn, hx2, ?_, hl2⟩, ?_, ?_⟩
    · intro p hp
      have : p.1 ∈ l2.map Prod.fst := List.mem_map.mpr ⟨p, hp, rfl⟩
      have : p.1 ∈ l1.map Prod.fst := hpk.symm.subset this
      obtain ⟨q, hq, hqe⟩ := List.mem_map.mp this
      rw [← hqe]
      exact hne1 q hq
    · simp only [canonForest, hcx]
      exact hpc.cons _
    · simp only [List.map_cons]
      exact hpk.cons _
  · intro a b l hg
    obtain ⟨n1, x1⟩ := a
    obtain ⟨n2, x2⟩ := b
    obtain ⟨hn1, hx1, hne1, hrest⟩ := forestGoodB_cons.mp hg
    obtain ⟨hn2, hx2, hne2, hl⟩ := forestGoodB_cons.mp hrest
    have h21 : n2 ≠ n1 := hne1 (n2, x2) (by simp)
    refine ⟨forestGoodB_cons.mpr ⟨hn2, hx2, ?_, forestGoodB_cons.mpr
      ⟨hn1, hx1, fun p hp => hne1 p (by simp [hp]), hl⟩⟩, ?_, ?_⟩
    · intro p hp
      rcases List.mem_cons.mp hp with rfl | hp2
      · exact Ne.symm h21
      · exact hne2 p hp2
    · simp only [canonForest]
      exact List.Perm.swap _ _ _
    · simp only [List.map_cons]
      exact List.Perm.swap _ _ _
  · intro l1 l2 l3 h12 h23 ih12 ih23 hg
    obtain ⟨hg2, p1, k1⟩ := ih12 hg
    obtain ⟨hg3, p2, k2⟩ := ih23 hg2
    exact ⟨hg3, p1.trans p2, k1.trans k2⟩

/-- C9: the entry sequence `Tar` emits is a deterministic function of the
tree and not of the platform's directory-listing order: relisting any
directory's children leaves the output unchanged, because `filepath.Walk`
visits each directory's children in lexicographically sorted name order
(the listing of every directory in the walked canonical tree is sorted by
name). -/
theorem tar_entry_order_deterministic (ignorer : Option (GoStr → Bool))
    (t1 t2 : FsTree) (hgood : treeGoodB t1 = true) (hrel : Relist t1 t2) :
    tarEntries ignorer t1 = tarEntries ignorer t2 ∧
    (∀ m cs, canonTree t1 = .dir m cs →
      (cs.map Prod.fst).Pairwise (fun a b => strLe a b = true)) := by
  have hcanon := (relist_canonTree_eq hrel hgood).2
  constructor
  · rw [tarEntries, tarEntries, hcanon]
  · intro m cs hc
    cases t1 with
    | file m0 c0 => simp [canonTree] at hc
    | dir m0 cs0 =>
      simp only [canonTree, FsTree.dir.injEq] at hc
      rw [← hc.2]
      exact List.Pairwise.map Prod.fst (fun a b hab => hab)
        (sortPairs_sorted (canonForest cs0))

/-- C9 (witness): two listings of the same two-level tree with all sibling
orders swapped produce the same entry stream, and the walked listing is
sorted. -/
theorem tar_entry_order_deterministic_witness :
    tarEntries none
        (.dir 493 [(gs "b", .file 420 [66]),
                   (gs "a", .dir 493 [(gs "d", .file 420 [68]), (gs "c", .file 420 [67])])]) =
      tarEntries none
        (.dir 493 [(gs "a", .dir 493 [(gs "d", .file 420 [68]), (gs "c", .file 420 [67])]),
                   (gs "b", .file 420 [66])]) ∧
    (∀ m cs, canonTree
        (.dir 493 [(gs "b", .file 420 [66]),
                   (gs "a", .dir 493 [(gs "d", .file 420 [68]), (gs "c", .file 420 [67])])]) =
          .dir m cs →
      (cs.map Prod.fst).Pairwise (fun a b => strLe a b = true)) := by
  exact tar_entry_order_deterministic none _ _ (by decide)
    (Relist.dir 493 (ForestRelist.swap _ _ _))

/-! ## Relative-path bookkeeping for the walk -/

theorem append_slash_ne_dot (x n : GoStr) : x ++ '/' :: n ≠ ['.'] := by
  cases x with
  | nil =>
    intro h
    exact absurd (List.head_eq_of_cons_eq h) (by decide)
  | cons c rest =>
    intro h
    have := List.tail_eq_of_cons_eq h
    exact absurd (List.append_eq_nil.mp this).2 (by simp)

theorem joinNames_ne_dot {rs : List GoStr} (hne : rs ≠ [])
    (h : ∀ x ∈ rs, goodName x = true) : joinNames rs ≠ ['.'] := by
  cases rs with
  | nil => exact absurd rfl hne
  | cons n rest =>
    cases rest with
    | nil => exact (goodName_iff.mp (h n (by simp))).2.2.1
    | cons m r2 =>
      rw [joinNames_cons_cons]
      exact append_slash_ne_dot n (joinNames (m :: r2))

theorem relJoin_joinNames {rs : List GoStr} (hne : rs ≠ [])
    (hdot : joinNames rs ≠ ['.']) (n : GoStr) :
    relJoin (joinNames rs) n = joinNames (rs ++ [n]) := by
  rw [relJoin, if_neg hdot, joinNames_append rs [n] hne (by simp)]
  rfl

theorem relJoin_relOf {rs : List GoStr} (h : ∀ x ∈ rs, goodName x = true)
    (n : GoStr) : relJoin (relOf rs) n = joinNames (rs ++ [n]) := by
  cases hrs : rs with
  | nil => simp [relOf, relJoin, joinNames]
  | cons a l =>
    rw [relOf, if_neg (by simp)]
    exact relJoin_joinNames (by simp) (joinNames_ne_dot (by simp) (hrs ▸ h)) n

theorem relOf_append_singleton (rs : List GoStr) (n : GoStr) :
    relOf (rs ++ [n]) = joinNames (rs ++ [n]) := by
  rw [relOf, if_neg (by simp)]

/-! ## An ignored subtree contributes no entries and no objects -/

mutual

theorem ignored_tree_empty (ignorer : Option (GoStr → Bool))
    (hclosed : IgnStepClosed ignorer) (ds : List GoStr) :
    ∀ (t : FsTree) (rs : List GoStr), rs ≠ [] → joinNames rs ≠ ['.'] →
      matchesIgn ignorer (joinNames rs) = true →
      tarVisitTree ignorer (joinNames rs) t = [] ∧ flatTree ignorer ds rs t = []
  | .file m c, rs, hne, hdot, hm => by
    rw [tarVisitTree, if_pos hm, flatTree, if_pos hm]
    exact ⟨rfl, rfl⟩
  | .dir m cs, rs, hne, hdot, hm => by
    have hf := ignored_forest_empty ignorer hclosed ds cs rs hne hdot hm
    rw [tarVisitTree, if_pos hm, flatTree, if_pos hm, hf.1, hf.2]
    exact ⟨rfl, rfl⟩

theorem ignored_forest_empty (ignorer : Option (GoStr → Bool))
    (hclosed : IgnStepClosed ignorer) (ds : List GoStr) :
    ∀ (cs : List (GoStr × FsTree)) (rs : List GoStr), rs ≠ [] →
      joinNames rs ≠ ['.'] → matchesIgn ignorer (joinNames rs) = true →
      tarVisitForest ignorer (joinNames rs) cs = [] ∧
      flatForest ignorer ds rs cs = []
  | [], rs, hne, hdot, hm => ⟨rfl, rfl⟩
  | (n, t) :: rest, rs, hne, hdot, hm => by
    have hmc : matchesIgn ignorer (joinNames (rs ++ [n])) = true := by
      rw [joinNames_append rs [n] hne (by simp)]
      exact hclosed (joinNames rs) n hm
    have hjc : relJoin (joinNames rs) n = joinNames (rs ++ [n]) :=
      relJoin_joinNames hne hdot n
    have ht := ignored_tree_empty ignorer hclosed ds t (rs ++ [n]) (by simp)
      (by rw [joinNames_append rs [n] hne (by simp)]
          exact append_slash_ne_dot _ _) hmc
    have hrest := ignored_forest_empty ignorer hclosed ds rest rs hne hdot hm
    rw [tarVisitForest, hjc, ht.1, hrest.1, flatForest, ht.2, hrest.2]
    exact ⟨rfl, rfl⟩

end

/-! ## Addresses of the objects the round trip materializes -/

theorem forestGoodB_mem :
    ∀ {cs : List (GoStr × FsTree)}, forestGoodB cs = true →
      ∀ p ∈ cs, goodName p.1 = true ∧ treeGoodB p.2 = true := by
  intro cs
  induction cs with
  | nil => intro _ p hp; simp at hp
  | cons e rest ih =>
    obtain ⟨n, t⟩ := e
    intro h p hp
    obtain ⟨h1, h2, _, h4⟩ := forestGoodB_cons.mp h
    rcases List.mem_cons.mp hp with rfl | hp2
    · exact ⟨h1, h2⟩
    · exact ih h4 p hp2

mutual

theorem flatTree_addr (ignorer : Option (GoStr → Bool)) (ds : List GoStr) :
    ∀ (t : FsTree) (rs : List GoStr) (q : GoStr) (o : FsObj),
      treeGoodB t = true → (q, o) ∈ flatTree ignorer ds rs t →
      ∃ l, (∀ x ∈ l, goodName x = true) ∧ q = mkAbs (ds ++ rs ++ l)
  | .file m c, rs, q, o => by
    intro hg hmem
    rw [flatTree] at hmem
    split at hmem
    · simp at hmem
    · simp only [List.mem_singleton, Prod.mk.injEq] at hmem
      exact ⟨[], by simp, by simp [hmem.1]⟩
  | .dir m cs, rs, q, o => by
    intro hg hmem
    rw [flatTree] at hmem
    rcases List.mem_append.mp hmem with hh | hh
    · split at hh
      · simp at hh
      · simp only [List.mem_singleton, Prod.mk.injEq] at hh
        exact ⟨[], by simp, by simp [hh.1]⟩
    · obtain ⟨n2, l2, _, hq, hgn, hgl⟩ :=
        flatForest_addr ignorer ds cs rs q o (by rwa [treeGoodB] at hg) hh
      exact ⟨n2 :: l2, by
        intro x hx
        rcases List.mem_cons.mp hx with rfl | hx2
        · exact hgn
        · exact hgl x hx2, hq⟩

theorem flatForest_addr (ignorer : Option (GoStr → Bool)) (ds : List GoStr) :
    ∀ (cs : List (GoStr × FsTree)) (rs : List GoStr) (q : GoStr) (o : FsObj),
      forestGoodB cs = true → (q, o) ∈ flatForest ignorer ds rs cs →
      ∃ n l, n ∈ cs.map Prod.fst ∧ q = mkAbs (ds ++ rs ++ n :: l) ∧
        goodName n = true ∧ (∀ x ∈ l, goodName x = true)
  | [], rs, q, o => by intro _ hmem; simp [flatForest] at hmem
  | (n, t) :: rest, rs, q, o => by
    intro hg hmem
    obtain ⟨hgn, hgt, _, hgrest⟩ := forestGoodB_cons.mp hg
    rw [flatForest] at hmem
    rcases List.mem_append.mp hmem with hh | hh
    · obtain ⟨l, hgl, hq⟩ := flatTree_addr ignorer ds t (rs ++ [n]) q o hgt hh
      refine ⟨n, l, ?_, ?_, hgn, hgl⟩
      · rw [List.map_cons]
        exact List.mem_cons_self _ _
      · rw [hq]
        simp [List.append_assoc]
    · obtain ⟨n2, l2, hmem2, hq, hgn2, hgl2⟩ :=
        flatForest_addr ignorer ds rest rs q o hgrest hh
      refine ⟨n2, l2, ?_, hq, hgn2, hgl2⟩
      rw [List.map_cons]
      exact List.mem_cons_of_mem _ hmem2

end

/-! ## One fresh entry below an existing parent directory -/

theorem goods_append {ds rs : List GoStr} (hds : ∀ x ∈ ds, goodName x = true)
    (hrs : ∀ x ∈ rs, goodName x = true) :
    ∀ x ∈ ds ++ rs, goodName x = true := by
  intro x hx
  rcases List.mem_append.mp hx with h | h
  · exact hds x h
  · exact hrs x h

theorem goods_concat {rp : List GoStr} {n : GoStr}
    (hrp : ∀ x ∈ rp, goodName x = true) (hn : goodName n = true) :
    ∀ x ∈ rp ++ [n], goodName x = true := by
  intro x hx
  rcases List.mem_append.mp hx with h | h
  · exact hrp x h
  · rw [List.mem_singleton.mp h]
    exact hn

theorem untarStep_fresh_file (ds rp : List GoStr) (n : GoStr) (fs : Fs)
    (m : Nat) (c : List Nat)
    (hds : ∀ x ∈ ds, goodName x = true) (hdsne : ds ≠ [])
    (hrp : ∀ x ∈ rp, goodName x = true) (hn : goodName n = true)
    (hfind : fsFind fs (mkAbs (ds ++ (rp ++ [n]))) = none)
    (hpar : ∃ pm, fsFind fs (mkAbs (ds ++ rp)) = some (.dir pm)) :
    untarStep (mkAbs ds) fs
        { name := joinNames (rp ++ [n]), typeflag := tarTypeReg, mode := m,
          content := c } =
      .ok (fs ++ [(mkAbs (ds ++ (rp ++ [n])), .file m c)]) := by
  have hrsgood := goods_concat hrp hn
  have hrsne : rp ++ [n] ≠ [] := by simp
  have hfull : ∀ x ∈ ds ++ (rp ++ [n]), goodName x = true := goods_append hds hrsgood
  have htgt : cleanGo (joinGo (mkAbs ds) (joinNames (rp ++ [n]))) =
      mkAbs (ds ++ (rp ++ [n])) := target_eq hds hrsgood hdsne hrsne
  have hpre : hasPrefixGo (cleanGo (joinGo (mkAbs ds) (joinNames (rp ++ [n]))))
      (mkAbs ds) = true := by
    rw [htgt]
    exact hasPrefixGo_target hdsne hrsne
  have hroot : mkAbs (ds ++ (rp ++ [n])) ≠ ['/'] :=
    mkAbs_ne_root (by simp [hdsne]) hfull
  have hparent : parentOf (mkAbs (ds ++ (rp ++ [n]))) = mkAbs (ds ++ rp) := by
    rw [parentOf, absNames_mkAbs hfull,
      show ds ++ (rp ++ [n]) = (ds ++ rp) ++ [n] by simp [List.append_assoc],
      List.dropLast_concat]
  have hrootp : mkAbs (ds ++ rp) ≠ ['/'] :=
    mkAbs_ne_root (by simp [hdsne]) (goods_append hds hrp)
  obtain ⟨pm, hpm⟩ := hpar
  rw [untarStep_reg_eq _ _ _ rfl hpre]
  dsimp only
  rw [htgt, writeFile, fsStat, if_neg hroot, hfind, hparent, fsStat,
    if_neg hrootp, hpm, fsSet_fresh hfind]

theorem untarStep_fresh_dir (ds rp : List GoStr) (n : GoStr) (fs : Fs) (m : Nat)
    (hds : ∀ x ∈ ds, goodName x = true) (hdsne : ds ≠ [])
    (hrp : ∀ x ∈ rp, goodName x = true) (hn : goodName n = true)
    (hfind : fsFind fs (mkAbs (ds ++ (rp ++ [n]))) = none)
    (hpar : ∃ pm, fsFind fs (mkAbs (ds ++ rp)) = some (.dir pm)) :
    untarStep (mkAbs ds) fs
        { name := joinNames (rp ++ [n]), typeflag := tarTypeDir, mode := m,
          content := [] } =
      .ok (fs ++ [(mkAbs (ds ++ (rp ++ [n])), .dir m)]) := by
  have hrsgood := goods_concat hrp hn
  have hrsne : rp ++ [n] ≠ [] := by simp
  have hfull : ∀ x ∈ ds ++ (rp ++ [n]), goodName x = true := goods_append hds hrsgood
  have hfull2 : ∀ x ∈ (ds ++ rp) ++ [n], goodName x = true := by
    intro x hx
    exact hfull x (by simpa [List.append_assoc] using hx)
  have htgt : cleanGo (joinGo (mkAbs ds) (joinNames (rp ++ [n]))) =
      mkAbs (ds ++ (rp ++ [n])) := target_eq hds hrsgood hdsne hrsne
  have hpre : hasPrefixGo (cleanGo (joinGo (mkAbs ds) (joinNames (rp ++ [n]))))
      (mkAbs ds) = true := by
    rw [htgt]
    exact hasPrefixGo_target hdsne hrsne
  have hroot : mkAbs (ds ++ (rp ++ [n])) ≠ ['/'] :=
    mkAbs_ne_root (by simp [hdsne]) hfull
  have hrootp : mkAbs (ds ++ rp) ≠ ['/'] :=
    mkAbs_ne_root (by simp [hdsne]) (goods_append hds hrp)
  obtain ⟨pm, hpm⟩ := hpar
  have hbase : fsStat fs (mkAbs (ds ++ rp)) = some (.dir pm) := by
    rw [fsStat, if_neg hrootp]
    exact hpm
  have hassoc : ds ++ (rp ++ [n]) = (ds ++ rp) ++ [n] := by
    simp [List.append_assoc]
  have hchain : mkdirAllRev fs ((ds ++ rp) ++ [n]).reverse m =
      .ok (fs ++ chainDirs (ds ++ rp) m [n]) := by
    refine mkdirAllRev_creates m [n] fs (ds ++ rp) hfull2 ⟨pm, hbase⟩ ?_ (by simp)
    intro l h1 h2
    have : l = [n] := by
      have hlen : l.length ≤ 1 := by simpa using h2.length_le
      have hl : l = [n].take l.length := List.prefix_iff_eq_take.mp h2
      interval_cases hL : l.length
      · exact absurd (List.length_eq_zero.mp hL) h1
      · simpa using hl
    rw [this, ← hassoc]
    exact hfind
  rw [untarStep_dir_eq _ _ _ rfl hpre]
  dsimp only
  rw [htgt, fsStat, if_neg hroot, hfind, mkdirAll, absNames_mkAbs hfull, hassoc,
    hchain,
    show chainDirs (ds ++ rp) m [n] = [(mkAbs ((ds ++ rp) ++ [n]), FsObj.dir m)]
      from rfl,
    ← hassoc]

/-! ## Canonicalization preserves well-formedness -/

theorem forestGoodB_iff {cs : List (GoStr × FsTree)} :
    forestGoodB cs = true ↔
      (∀ p ∈ cs, goodName p.1 = true ∧ treeGoodB p.2 = true) ∧
      (cs.map Prod.fst).Nodup := by
  constructor
  · intro h
    exact ⟨forestGoodB_mem h, forestGoodB_nodup_keys h⟩
  · intro ⟨hmem, hnd⟩
    induction cs with
    | nil => rfl
    | cons e rest ih =>
      obtain ⟨n, t⟩ := e
      rw [List.map_cons, List.nodup_cons] at hnd
      refine forestGoodB_cons.mpr ⟨(hmem (n, t) (by simp)).1,
        (hmem (n, t) (by simp)).2, ?_, ih (fun p hp => hmem p (by simp [hp])) hnd.2⟩
      intro p hp hcon
      exact hnd.1 (List.mem_map.mpr ⟨p, hp, hcon⟩)

mutual

theorem canonTree_goodB :
    ∀ t : FsTree, treeGoodB t = true → treeGoodB (canonTree t) = true
  | .file m c => fun h => h
  | .dir m cs => by
    intro h
    rw [treeGoodB] at h
    rw [canonTree, treeGoodB]
    refine forestGoodB_iff.mpr ⟨?_, ?_⟩
    · intro p hp
      have hp2 : p ∈ canonForest cs := by
        have := (sortPairs_perm (canonForest cs)).subset
        exact this hp
      exact canonForest_goodB_mem cs h p hp2
    · have h1 : ((sortPairs (canonForest cs)).map Prod.fst).Perm
          ((canonForest cs).map Prod.fst) := (sortPairs_perm _).map Prod.fst
      rw [canonForest_map_fst] at h1
      exact h1.nodup_iff.mpr (forestGoodB_nodup_keys h)

theorem canonForest_goodB_mem :
    ∀ cs : List (GoStr × FsTree), forestGoodB cs = true →
      ∀ p ∈ canonForest cs, goodName p.1 = true ∧ treeGoodB p.2 = true
  | [] => by intro _ p hp; simp [canonForest] at hp
  | (n, t) :: rest => by
    intro h p hp
    obtain ⟨h1, h2, _, h4⟩ := forestGoodB_cons.mp h
    rw [canonForest] at hp
    rcases List.mem_cons.mp hp with rfl | hp2
    · exact ⟨h1, canonTree_goodB t h2⟩
    · exact canonForest_goodB_mem rest h4 p hp2

end

/-! ## The round-trip induction -/

mutual

/-- Processing the entries `Tar` emits for one subtree (rooted at child
`n` of the directory addressed by `rp`) materializes exactly the subtree's
non-ignored objects, appended to the store, and then continues with the
remaining entries. -/
theorem untar_flatTree (ignorer : Option (GoStr → Bool))
    (hclosed : IgnStepClosed ignorer) (ds : List GoStr)
    (hds : ∀ x ∈ ds, goodName x = true) (hdsne : ds ≠ []) :
    ∀ (t : FsTree) (rp : List GoStr) (n : GoStr) (fs : Fs) (rest : List Entry),
      treeGoodB t = true → (∀ x ∈ rp, goodName x = true) → goodName n = true →
      (∃ pm, fsFind fs (mkAbs (ds ++ rp)) = some (.dir pm)) →
      (∀ q o, (q, o) ∈ flatTree ignorer ds (rp ++ [n]) t → fsFind fs q = none) →
      untarEntries (mkAbs ds) fs
          (tarVisitTree ignorer (joinNames (rp ++ [n])) t ++ rest) =
        untarEntries (mkAbs ds) (fs ++ flatTree ignorer ds (rp ++ [n]) t) rest
  | .file m c, rp, n, fs, rest => by
    intro hg hrp hn hpar hfresh
    by_cases hm : matchesIgn ignorer (joinNames (rp ++ [n])) = true
    · rw [tarVisitTree, if_pos hm, flatTree, if_pos hm]
      simp
    · rw [tarVisitTree, if_neg hm, flatTree, if_neg hm, List.singleton_append,
        untarEntries]
      have hfind : fsFind fs (mkAbs (ds ++ (rp ++ [n]))) = none := by
        refine hfresh _ (.file m c) ?_
        rw [flatTree, if_neg hm]
        exact List.mem_singleton.mpr rfl
      rw [untarStep_fresh_file ds rp n fs m c hds hdsne hrp hn hfind hpar]
  | .dir m cs, rp, n, fs, rest => by
    intro hg hrp hn hpar hfresh
    have hrsgood := goods_concat hrp hn
    have hgf : forestGoodB cs = true := by rwa [treeGoodB] at hg
    by_cases hm : matchesIgn ignorer (joinNames (rp ++ [n])) = true
    · have h := ignored_tree_empty ignorer hclosed ds (.dir m cs) (rp ++ [n])
        (by simp) (joinNames_ne_dot (by simp) hrsgood) hm
      rw [h.1, h.2]
      simp
    · rw [tarVisitTree, if_neg hm, flatTree, if_neg hm, List.append_assoc,
        List.singleton_append, untarEntries]
      have hfind : fsFind fs (mkAbs (ds ++ (rp ++ [n]))) = none := by
        refine hfresh _ (.dir m) ?_
        rw [flatTree, if_neg hm]
        exact List.mem_append.mpr (Or.inl (List.mem_singleton.mpr rfl))
      rw [untarStep_fresh_dir ds rp n fs m hds hdsne hrp hn hfind hpar]
      dsimp only
      have hparnew : ∃ pm, fsFind
          (fs ++ [(mkAbs (ds ++ (rp ++ [n])), FsObj.dir m)])
          (mkAbs (ds ++ (rp ++ [n]))) = some (.dir pm) :=
        ⟨m, by rw [fsFind_append_left hfind, fsFind_singleton, if_pos rfl]⟩
      have hfreshnew : ∀ q o, (q, o) ∈ flatForest ignorer ds (rp ++ [n]) cs →
          fsFind (fs ++ [(mkAbs (ds ++ (rp ++ [n])), FsObj.dir m)]) q = none := by
        intro q o hq
        have hsub : (q, o) ∈ flatTree ignorer ds (rp ++ [n]) (.dir m cs) := by
          rw [flatTree, if_neg hm]
          exact List.mem_append.mpr (Or.inr hq)
        rw [fsFind_append_left (hfresh q o hsub), fsFind_singleton, if_neg]
        obtain ⟨n2, l2, _, hq2, hgn2, hgl2⟩ :=
          flatForest_addr ignorer ds cs (rp ++ [n]) q o hgf hq
        intro hcon
        have g1 : ∀ x ∈ ds ++ (rp ++ [n]), goodName x = true :=
          goods_append hds hrsgood
        have g2 : ∀ x ∈ ds ++ (rp ++ [n]) ++ n2 :: l2, goodName x = true := by
          refine goods_append (goods_append hds hrsgood) ?_
          intro x hx
          rcases List.mem_cons.mp hx with rfl | hx2
          · exact hgn2
          · exact hgl2 x hx2
        have heq := mkAbs_inj g1 g2 (hcon.trans hq2)
        have hlen := congrArg List.length heq
        simp [List.length_append] at hlen
      have hforest := untar_flatForest ignorer hclosed ds hds hdsne cs
        (rp ++ [n]) (fs ++ [(mkAbs (ds ++ (rp ++ [n])), FsObj.dir m)]) rest
        hgf hrsgood hparnew hfreshnew
      rw [relOf_append_singleton] at hforest
      rw [hforest]
      rw [List.append_assoc]

/-- `untar_flatTree` lifted over the children of the directory addressed
by `rs`, in listing order. -/
theorem untar_flatForest (ignorer : Option (GoStr → Bool))
    (hclosed : IgnStepClosed ignorer) (ds : List GoStr)
    (hds : ∀ x ∈ ds, goodName x = true) (hdsne : ds ≠ []) :
    ∀ (cs : List (GoStr × FsTree)) (rs : List GoStr) (fs : Fs) (rest : List Entry),
      forestGoodB cs = true → (∀ x ∈ rs, goodName x = true) →
      (∃ pm, fsFind fs (mkAbs (ds ++ rs)) = some (.dir pm)) →
      (∀ q o, (q, o) ∈ flatForest ignorer ds rs cs → fsFind fs q = none) →
      untarEntries (mkAbs ds) fs (tarVisitForest ignorer (relOf rs) cs ++ rest) =
        untarEntries (mkAbs ds) (fs ++ flatForest ignorer ds rs cs) rest
  | [], rs, fs, rest => by
    intro _ _ _ _
    rw [tarVisitForest, flatForest]
    simp
  | (n, t) :: cs2, rs, fs, rest => by
    intro hg hrs hpar hfresh
    obtain ⟨hgn, hgt, hnames, hgcs2⟩ := forestGoodB_cons.mp hg
    rw [tarVisitForest, flatForest, relJoin_relOf hrs n, List.append_assoc]
    have htree := untar_flatTree ignorer hclosed ds hds hdsne t rs n fs
      (tarVisitForest ignorer (relOf rs) cs2 ++ rest) hgt hrs hgn hpar
      (fun q o hq => hfresh q o (List.mem_append.mpr (Or.inl hq)))
    rw [htree]
    have hparnew : ∃ pm, fsFind (fs ++ flatTree ignorer ds (rs ++ [n]) t)
        (mkAbs (ds ++ rs)) = some (.dir pm) :=
      ⟨hpar.choose, fsFind_append_right hpar.choose_spec⟩
    have hfreshnew : ∀ q o, (q, o) ∈ flatForest ignorer ds rs cs2 →
        fsFind (fs ++ flatTree ignorer ds (rs ++ [n]) t) q = none := by
      intro q o hq
      have h1 : fsFind fs q = none :=
        hfresh q o (List.mem_append.mpr (Or.inr hq))
      rw [fsFind_append_left h1, fsFind_eq_none_iff]
      intro o2 hcon
      obtain ⟨l, hgl, hql⟩ := flatTree_addr ignorer ds t (rs ++ [n]) q o2 hgt hcon
      obtain ⟨n2, l2, hn2mem, hq2, hgn2, hgl2⟩ :=
        flatForest_addr ignorer ds cs2 rs q o hgcs2 hq
      have g1 : ∀ x ∈ ds ++ (rs ++ [n]) ++ l, goodName x = true :=
        goods_append (goods_append hds (goods_concat hrs hgn)) hgl
      have g2 : ∀ x ∈ ds ++ rs ++ n2 :: l2, goodName x = true := by
        refine goods_append (goods_append hds hrs) ?_
        intro x hx
        rcases List.mem_cons.mp hx with rfl | hx2
        · exact hgn2
        · exact hgl2 x hx2
      have heq := mkAbs_inj g1 g2 (hql.symm.trans hq2)
      have heqn : ds ++ (rs ++ n :: l) = ds ++ (rs ++ n2 :: l2) := by
        simpa [List.append_assoc] using heq
      have heq2 : n :: l = n2 :: l2 :=
        List.append_cancel_left (List.append_cancel_left heqn)
      have hn12 : n = n2 := by
        injection heq2
      obtain ⟨p2, hp2, hp2e⟩ := List.mem_map.mp hn2mem
      exact hnames p2 hp2 (hp2e.trans hn12.symm)
    have hforest := untar_flatForest ignorer hclosed ds hds hdsne cs2 rs
      (fs ++ flatTree ignorer ds (rs ++ [n]) t) rest hgcs2 hrs hparnew hfreshnew
    rw [hforest, List.append_assoc]

end

/-- C2 (amended): archiving a well-formed directory tree and extracting
the stream into an empty existing destination reproduces, below the
destination, exactly the tree's entries that the active ignore rule set
does not exclude — same relative paths, same permission bits, same byte
contents, in walk order — with no error, provided the rule set is closed
under descending (whenever it matches a path it matches every path one
level beneath, as standard ignore semantics guarantee).  `flatForest`
spells out the predicted tree; without that closure property the round
trip can instead fail outright (see the counterexample). -/
theorem tar_untar_roundtrip (ignorer : Option (GoStr → Bool))
    (hclosed : IgnStepClosed ignorer) (ds : List GoStr) (m dm : Nat)
    (cs : List (GoStr × FsTree))
    (hds : ∀ x ∈ ds, goodName x = true) (hdsne : ds ≠ [])
    (hgood : treeGoodB (.dir m cs) = true) :
    (Tar ignorer (some (.dir m cs))).2 = none ∧
    Untar (gs "/") (mkAbs ds) [(mkAbs ds, .dir dm)]
        (Tar ignorer (some (.dir m cs))).1 =
      ([(mkAbs ds, .dir dm)] ++
        flatForest ignorer ds [] (sortPairs (canonForest cs)), none) := by
  refine ⟨rfl, ?_⟩
  have hgoodf : forestGoodB cs = true := by rwa [treeGoodB] at hgood
  have hcanon_good : forestGoodB (sortPairs (canonForest cs)) = true := by
    have := canonTree_goodB (.dir m cs) hgood
    rwa [canonTree, treeGoodB] at this
  have htar : (Tar ignorer (some (.dir m cs))).1 =
      tarVisitForest ignorer ['.'] (sortPairs (canonForest cs)) := rfl
  have habs : absGo (gs "/") (mkAbs ds) = mkAbs ds := by
    rw [absGo, if_pos (by simp [mkAbs])]
    exact cleanGo_mkAbs hds
  have hroot : mkAbs ds ≠ ['/'] := mkAbs_ne_root hdsne hds
  have hstat0 : fsStat [(mkAbs ds, FsObj.dir dm)] (mkAbs ds) = some (.dir dm) := by
    rw [fsStat, if_neg hroot, fsFind_singleton, if_pos rfl]
  have hmain := untar_flatForest ignorer hclosed ds hds hdsne
    (sortPairs (canonForest cs)) [] [(mkAbs ds, FsObj.dir dm)] []
    hcanon_good (by simp)
    ⟨dm, by rw [List.append_nil, fsFind_singleton, if_pos rfl]⟩
    (by
      intro q o hq
      obtain ⟨n2, l2, _, hq2, hgn2, hgl2⟩ := flatForest_addr ignorer ds
        (sortPairs (canonForest cs)) [] q o hcanon_good hq
      rw [fsFind_singleton, if_neg]
      intro hcon
      have g2 : ∀ x ∈ ds ++ ([] : List GoStr) ++ n2 :: l2, goodName x = true := by
        refine goods_append (goods_append hds (by simp)) ?_
        intro x hx
        rcases List.mem_cons.mp hx with rfl | hx2
        · exact hgn2
        · exact hgl2 x hx2
      have heq := mkAbs_inj hds g2 (hcon.trans hq2)
      have hlen := congrArg List.length heq
      simp [List.length_append] at hlen)
  rw [htar, Untar]
  rw [habs, hstat0]
  rw [show tarVisitForest ignorer ['.'] (sortPairs (canonForest cs)) =
      tarVisitForest ignorer (relOf []) (sortPairs (canonForest cs)) ++ []
    by simp [relOf]]
  rw [hmain]
  rw [untarEntries]

/-- C2 (counterexample): with an active rule set matching exactly the
directory `d1` but not the file `d1/f2` beneath it (negation-style rules),
`Tar` emits only the entry `d1/f2`; extracting that stream into an empty
destination fails with `ENOENT` because the parent directory entry was
excluded — the round trip neither reproduces the tree minus the excluded
entries nor succeeds at all. -/
theorem tar_untar_roundtrip_counterexample :
    ((Tar (some fun s => s == gs "d1")
        (some (.dir 493 [(gs "d1", .dir 493 [(gs "f2", .file 420 [66])])]))).1.map
      (fun e => e.name) = [gs "d1/f2"]) ∧
    Untar (gs "/") (gs "/dst") [(gs "/dst", .dir 493)]
        (Tar (some fun s => s == gs "d1")
          (some (.dir 493 [(gs "d1", .dir 493 [(gs "f2", .file 420 [66])])]))).1 =
      ([(gs "/dst", .dir 493)], some (.openNoEnt (gs "/dst/d1/f2"))) := by decide

/-- C2 (witness for the amended claim): the amended round-trip law at a
concrete two-level tree with no active ignore rules. -/
theorem tar_untar_roundtrip_witness :
    (Tar none (some (.dir 493
      [(gs "b", .file 420 [66]),
       (gs "a", .dir 448 [(gs "c", .file 384 [67])])]))).2 = none ∧
    Untar (gs "/") (mkAbs [gs "dst"]) [(mkAbs [gs "dst"], .dir 493)]
        (Tar none (some (.dir 493
          [(gs "b", .file 420 [66]),
           (gs "a", .dir 448 [(gs "c", .file 384 [67])])]))).1 =
      ([(mkAbs [gs "dst"], .dir 493)] ++
        flatForest none [gs "dst"] []
          (sortPairs (canonForest
            [(gs "b", .file 420 [66]),
             (gs "a", .dir 448 [(gs "c", .file 384 [67])])])), none) := by
  exact tar_untar_roundtrip none
    (fun rel n h => by simp [matchesIgn] at h) [gs "dst"] 493 493
    [(gs "b", .file 420 [66]), (gs "a", .dir 448 [(gs "c", .file 384 [67])])]
    (by decide) (by decide) (by decide)

end GoArchiver
